import Mathlib

/-!
Shallow embedding of the emitter library (src/index.js): a listener
registry (`on` / `once` / `off` / `trigger`) and a channel router
(`addChannel` / `removeChannel` / `on` / `once` / `off` / `emit`) built
on top of it.

Modelling conventions:
- JS objects used as event tables are association lists `List (String × _)`
  preserving JS property insertion order (new keys appended at the end,
  assignment to an existing key keeps its position, `delete` removes it).
- Handle ids `'#' + maxHashId++` are modelled by the counter value itself
  (the `'#' + n` string is injective in `n`).
- JS function identity is modelled structurally: distinct user functions
  carry distinct `tag` numbers, each `_.once` wrapper carries a distinct
  `flagId`.  A callback's observable behaviour is one of: do nothing,
  call `self.off(name, id)`, call `self.off(name, fn)`, or be a `_.once`
  wrapper (set the fired flag, deregister itself, run the original).
- Dispatch produces a trace: one `Call` entry per function invocation made
  by `triggerEvents` or by a wrapper's inner call, recording the function,
  the `this` binding (`ev.ctx`) and the positional arguments.
- The argument-count switch (0–4 direct / default apply) in
  `triggerEvents` passes exactly the `args` list in every branch, so it is
  collapsed to a single list-passing call.
- `maxHashId`, the `_.once` fired flags and the wrapper counter are
  process-wide state (`PState`) threaded through all operations,
  separate from each registry's `_events`.
-/

/-- A value passed as a positional trigger argument: either the event-name
string that `trigger` prepends for `"all"` listeners, or an opaque value. -/
inductive Arg where
  | str (s : String)
  | val (n : Nat)
deriving DecidableEq, Repr

/-- A value usable as a `context` argument: the router object itself
(`context = context || this` in the router) or an opaque user object. -/
inductive CVal where
  | routerObj
  | userObj (n : Nat)
deriving DecidableEq, Repr

/-- An invocation target (`ev.ctx = context || this`): the owning registry
itself, or the supplied context value. -/
inductive Tgt where
  | selfReg
  | ofVal (v : CVal)
deriving DecidableEq, Repr

/-- A callback function.  `fn` is an opaque user callback; `fnOffId` and
`fnOffFn` are user callbacks whose body additionally calls
`self.off(name, id)` resp. `self.off(name, target)`; `wrapper` is the
closure built by `once` via `_.once` (its `_callback` property is
`inner`). -/
inductive Callback where
  | fn (tag : Nat)
  | fnOffId (tag : Nat) (name : String) (id : Nat)
  | fnOffFn (tag : Nat) (name : String) (target : Callback)
  | wrapper (flagId : Nat) (name : String) (inner : Callback)
deriving DecidableEq, Repr

/-- The `callback` argument of `off`: a handle-id string `'#'+n`
(`_.isString(callback)` branch) or a function reference. -/
inductive OffArg where
  | byId (id : Nat)
  | byFn (cb : Callback)
deriving DecidableEq, Repr

/-- A `ListenerRecord` pushed by `on`:
`{callback, context, ctx: context || this, id: '#' + maxHashId++}`. -/
structure Rec where
  callback : Callback
  context : Option CVal
  ctx : Tgt
  id : Nat
deriving DecidableEq, Repr

/-- The handle returned by `on`: `{id, name, off()}`; the `off` closure is
`handleOff` below. -/
structure Handle where
  id : Nat
  name : String
deriving DecidableEq, Repr

/-- One function invocation performed during dispatch: the function, the
`this` binding and the positional arguments. -/
structure Call where
  cb : Callback
  tgt : Tgt
  args : List Arg
deriving DecidableEq, Repr

/-- Process-wide mutable state: the `maxHashId` counter, a counter for
allocating `_.once` wrapper identities, and the set of wrapper flags
already fired. -/
structure PState where
  nextId : Nat
  nextFlag : Nat
  fired : List Nat
deriving DecidableEq, Repr

/-- The `_events` table: event name → ordered listener list, in JS
property insertion order. -/
abbrev Table := List (String × List Rec)

/-- A registry (`this` of the Emitter mixin): `_events` is `none` while
the property is still `undefined`. -/
structure RegState where
  events : Option Table
deriving DecidableEq, Repr

/-! ### Association-table helpers (JS object semantics) -/

/-- `obj[k]` on a string-keyed JS object. -/
def lookupK {α : Type} : List (String × α) → String → Option α
  | [], _ => none
  | p :: tl, k => if p.1 = k then some p.2 else lookupK tl k

/-- Assignment `obj[k] = v` to an existing key: the key keeps its
position. -/
def updateK {α : Type} (tbl : List (String × α)) (k : String) (v : α) :
    List (String × α) :=
  tbl.map (fun p => if p.1 = k then (k, v) else p)

/-- `delete obj[k]`. -/
def deleteK {α : Type} : List (String × α) → String → List (String × α)
  | [], _ => []
  | p :: tl, k => if p.1 = k then deleteK tl k else p :: deleteK tl k

/-- Assignment `obj[k] = v`: update in place if the key exists, otherwise
append the new key at the end (JS property insertion order). -/
def upsertK {α : Type} (tbl : List (String × α)) (k : String) (v : α) :
    List (String × α) :=
  if (lookupK tbl k).isSome then updateK tbl k v else tbl ++ [(k, v)]

/-! ### Event-name splitting (`eventSplitter = /\s+/`) -/

/-- A character matched by the `\s` class (the cases relevant here). -/
def isWsChar (c : Char) : Bool :=
  c == ' ' || c == '\t' || c == '\n' || c == '\r'

/-- `eventSplitter.test(name)`. -/
def hasWs (s : String) : Bool :=
  s.toList.any isWsChar

/-- JS `name.split(/\s+/)` on the character list: maximal whitespace runs
are separators; a leading or trailing run contributes an empty part. -/
def splitWsAux : List Char → List (List Char)
  | [] => [[]]
  | c :: cs =>
    let r := splitWsAux cs
    if isWsChar c then
      match cs with
      | c2 :: _ => if isWsChar c2 then r else [] :: r
      | [] => [] :: r
    else
      match r with
      | h :: t => (c :: h) :: t
      | [] => [[c]]

/-- JS `name.split(/\s+/)`. -/
def splitWsS (s : String) : List String :=
  (splitWsAux s.toList).map (fun l => String.mk l)

/-- JS `s.split(c)` for a single-character separator: split at every
occurrence, keeping empty parts. -/
def splitChar (c : Char) : List Char → List (List Char)
  | [] => [[]]
  | x :: xs =>
    match splitChar c xs with
    | [] => [[]]
    | h :: t => if x == c then [] :: h :: t else (x :: h) :: t

/-- `ChannelSplitter.test(name)` for `ChannelSplitter = /:/`. -/
def hasColon (s : String) : Bool :=
  s.toList.contains ':'

/-- JS `name.split(/:/)`. -/
def splitColonS (s : String) : List String :=
  (splitChar ':' s.toList).map (fun l => String.mk l)

/-! ### Registry: `off` -/

/-- `once._callback`: the original callback stored on a `_.once` wrapper
(`undefined` on any other function). -/
def origOf : Callback → Option Callback
  | .wrapper _ _ inner => some inner
  | _ => none

/-- The condition under which `off` keeps a record (pushes it onto
`remaining`), transcribing
`callback !== event.id` for the string branch and
`callback && callback !== event.callback && callback !== event.callback._callback || context && context !== event.context`
for the function branch (with JS `&&` binding tighter than `||`). -/
def keepRec (cbA : Option OffArg) (ctxA : Option CVal) (ev : Rec) : Bool :=
  match cbA with
  | some (.byId i) => i != ev.id
  | some (.byFn f) =>
    (f != ev.callback && some f != origOf ev.callback)
      || (ctxA.isSome && ctxA != ev.context)
  | none => ctxA.isSome && ctxA != ev.context

/-- JS falsiness of the `name` argument: an absent or empty-string name
counts as "no name" in `off`'s full-reset test and its `names`
selection. -/
def normName (nameA : Option String) : Option String :=
  match nameA with
  | some s => if s = "" then none else some s
  | none => none

/-- `var names = name ? [name] : _.keys(this._events)`. -/
def offNames (tbl : Table) (nameN : Option String) : List String :=
  match nameN with
  | some n => [n]
  | none => tbl.map Prod.fst

/-- One iteration of `off`'s per-name loop on the event table: bail out if
the bucket is absent, delete the whole bucket if neither callback nor
context is given, otherwise filter and either reinstall the remainder or
delete the bucket. -/
def offBucket (tbl : Table) (name : String) (cbA : Option OffArg)
    (ctxA : Option CVal) : Table :=
  match lookupK tbl name with
  | none => tbl
  | some evs =>
    if cbA.isNone && ctxA.isNone then deleteK tbl name
    else if (evs.filter (keepRec cbA ctxA)).isEmpty then deleteK tbl name
    else updateK tbl name (evs.filter (keepRec cbA ctxA))

/-- The body of `off` for a name with no whitespace (or no name): the
full-reset branch (`!name && !callback && !context`) and the loop over
`[name]` or all captured keys (the loop never clears `_events` itself, so
it runs entirely on the table). -/
def offCore (r : RegState) (nameA : Option String) (cbA : Option OffArg)
    (ctxA : Option CVal) : RegState :=
  match r.events with
  | none => r
  | some tbl =>
    if (normName nameA).isNone && cbA.isNone && ctxA.isNone then ⟨none⟩
    else
      ⟨some ((offNames tbl (normName nameA)).foldl
        (fun t n => offBucket t n cbA ctxA) tbl)⟩

/-- `Emitter.off(name, callback, context)`.  The `eventsApi` recursion for
a whitespace-separated name is unrolled one level (the split parts contain
no whitespace, see `splitWsAux_parts_ws_free`). -/
def offFn (r : RegState) (nameA : Option String) (cbA : Option OffArg)
    (ctxA : Option CVal) : RegState :=
  match r.events with
  | none => r
  | some _ =>
    match nameA with
    | some n =>
      if hasWs n then
        (splitWsS n).foldl (fun st nn => offCore st (some nn) cbA ctxA) r
      else offCore r (some n) cbA ctxA
    | none => offCore r none cbA ctxA

/-! ### Registry: `on`, `once`, handles -/

/-- The record `on` pushes:
`{callback, context, ctx: context || this, id: '#' + maxHashId++}`. -/
def mkRec (c : Callback) (ctxA : Option CVal) (id : Nat) : Rec :=
  ⟨c, ctxA, (match ctxA with | some v => .ofVal v | none => .selfReg), id⟩

/-- The single-name body of `on`: append a fresh `ListenerRecord` to the
bucket (creating `_events` and the bucket lazily) and return the
handle. -/
def onSingle (p : PState) (r : RegState) (name : String)
    (cbA : Option Callback) (ctxA : Option CVal) :
    PState × RegState × Option Handle :=
  match cbA with
  | none => (p, r, none)
  | some c =>
    (⟨p.nextId + 1, p.nextFlag, p.fired⟩,
      ⟨some (upsertK (r.events.getD []) name
        (((lookupK (r.events.getD []) name).getD [])
          ++ [mkRec c ctxA p.nextId]))⟩,
      some ⟨p.nextId, name⟩)

/-- `Emitter.on(name, callback, context)`.  For a whitespace-separated
name the `eventsApi` recursion registers each part independently and the
direct call returns `this` (no handle). -/
def onFn (p : PState) (r : RegState) (name : String)
    (cbA : Option Callback) (ctxA : Option CVal) :
    PState × RegState × Option Handle :=
  if hasWs name then
    let st := (splitWsS name).foldl
      (fun st nn =>
        let res := onSingle st.1 st.2 nn cbA ctxA
        (res.1, res.2.1)) (p, r)
    (st.1, st.2, none)
  else onSingle p r name cbA ctxA

/-- The single-name body of `once`: allocate a fresh `_.once` wrapper
(closing over this resolved name, with `_callback` set to the original)
and register it via `on`. -/
def onceSingle (p : PState) (r : RegState) (name : String)
    (cbA : Option Callback) (ctxA : Option CVal) :
    PState × RegState × Option Handle :=
  match cbA with
  | none => (p, r, none)
  | some c =>
    onSingle ⟨p.nextId, p.nextFlag + 1, p.fired⟩ r name
      (some (.wrapper p.nextFlag name c)) ctxA

/-- `Emitter.once(name, callback, context)`. -/
def onceFn (p : PState) (r : RegState) (name : String)
    (cbA : Option Callback) (ctxA : Option CVal) :
    PState × RegState × Option Handle :=
  if hasWs name then
    let st := (splitWsS name).foldl
      (fun st nn =>
        let res := onceSingle st.1 st.2 nn cbA ctxA
        (res.1, res.2.1)) (p, r)
    (st.1, st.2, none)
  else onceSingle p r name cbA ctxA

/-- The `off()` closure of a handle: `self.off(name, hashKey)`. -/
def handleOff (r : RegState) (h : Handle) : RegState :=
  offFn r (some h.name) (some (.byId h.id)) none

/-- The only mutation `stopListening` performs on a listened-to source
registry (src/index.js line 133): `obj.off(name, callback, this)`, with
the listener object passed as the context filter. -/
def stopListeningSource (src : RegState) (nameA : Option String)
    (cbA : Option OffArg) (selfObj : CVal) : RegState :=
  offFn src nameA cbA (some selfObj)

/-! ### Registry: dispatch -/

/-- Sequential execution of a list of steps, threading the process and
registry state and concatenating the traces. -/
def foldTrace {α : Type}
    (step : PState → RegState → α → PState × RegState × List Call) :
    List α → PState → RegState → PState × RegState × List Call
  | [], p, r => (p, r, [])
  | x :: xs, p, r =>
    let res1 := step p r x
    let res2 := foldTrace step xs res1.1 res1.2.1
    (res2.1, res2.2.1, res1.2.2 ++ res2.2.2)

/-- Record that a `_.once` guard has fired. -/
def fireFlag (p : PState) (f : Nat) : PState :=
  ⟨p.nextId, p.nextFlag, f :: p.fired⟩

/-- Execute one callback invocation `cb.call(tgt, ...args)`.  Every
invocation is recorded in the trace.  A wrapper whose flag has already
fired does nothing further (lodash `_.once`); otherwise it marks the flag
fired, calls `self.off(name, once)` and then invokes the original with
the same `this` and arguments. -/
def execCb (p : PState) (r : RegState) (c : Callback) (tgt : Tgt)
    (args : List Arg) : PState × RegState × List Call :=
  match c with
  | .fn _ => (p, r, [⟨c, tgt, args⟩])
  | .fnOffId _ n i =>
    (p, offFn r (some n) (some (.byId i)) none, [⟨c, tgt, args⟩])
  | .fnOffFn _ n t =>
    (p, offFn r (some n) (some (.byFn t)) none, [⟨c, tgt, args⟩])
  | .wrapper fid n inner =>
    if fid ∈ p.fired then (p, r, [⟨c, tgt, args⟩])
    else
      let res := execCb (fireFlag p fid)
        (offFn r (some n) (some (.byFn c)) none) inner tgt args
      (res.1, res.2.1, ⟨c, tgt, args⟩ :: res.2.2)

/-- `triggerEvents(events, args)`: iterate over the array captured at
dispatch start (`off` replaces `_events[name]` with a fresh array and
never mutates the captured one, and the loop bound `l` is captured before
the loop, so the iterated list is fixed).  The 0–4/default argument-count
switch passes exactly `args` in every branch and is collapsed. -/
def triggerEvents (p : PState) (r : RegState) (evs : List Rec)
    (args : List Arg) : PState × RegState × List Call :=
  foldTrace (fun p' r' ev => execCb p' r' ev.callback ev.ctx args) evs p r

/-- The single-name body of `trigger`: capture `this._events[name]` and
`this._events.all`, dispatch the first with `args`, then the second with
the event name prepended (`arguments`). -/
def triggerSingle (p : PState) (r : RegState) (name : String)
    (args : List Arg) : PState × RegState × List Call :=
  match r.events with
  | none => (p, r, [])
  | some tbl =>
    let res1 := match lookupK tbl name with
      | some l => triggerEvents p r l args
      | none => (p, r, ([] : List Call))
    let res2 := match lookupK tbl "all" with
      | some l => triggerEvents res1.1 res1.2.1 l (.str name :: args)
      | none => (res1.1, res1.2.1, ([] : List Call))
    (res2.1, res2.2.1, res1.2.2 ++ res2.2.2)

/-- `Emitter.trigger(name, ...args)`.  The `eventsApi` recursion for a
whitespace-separated name is unrolled one level. -/
def triggerFn (p : PState) (r : RegState) (name : String)
    (args : List Arg) : PState × RegState × List Call :=
  match r.events with
  | none => (p, r, [])
  | some _ =>
    if hasWs name then
      foldTrace (fun p' r' nn => triggerSingle p' r' nn args)
        (splitWsS name) p r
    else triggerSingle p r name args

/-- A whole sequence of `trigger` calls, concatenating their traces. -/
def runTriggers (p : PState) (r : RegState)
    (ops : List (String × List Arg)) : PState × RegState × List Call :=
  foldTrace (fun p' r' op => triggerFn p' r' op.1 op.2) ops p r

/-! ### Channel router -/

/-- The process-wide channel table `channels : channelName -> Registry`. -/
structure RouterState where
  channels : List (String × RegState)
deriving DecidableEq, Repr

/-- `_.extend({}, Emitter)`: a fresh registry whose `_events` is still
`undefined`. -/
def emptyReg : RegState := ⟨none⟩

/-- The router's name resolution, shared verbatim by `on`, `once`, the
non-`@` branch of `off`, and `emit`:
if `ChannelSplitter.test(name)` then
`(name.split(ChannelSplitter)[0], name.split(ChannelSplitter)[1])`,
otherwise `(DefaultChannel, name)` with `DefaultChannel = 'global'`. -/
def resolveName (name : String) : String × String :=
  if hasColon name then
    ((splitColonS name).getD 0 "", (splitColonS name).getD 1 "")
  else ("global", name)

/-- `addChannel(name)`: throw on an empty name, otherwise lazily create
the channel (idempotent). -/
def addChannel (rt : RouterState) (name : String) :
    Except String RouterState :=
  if name = "" then .error "Cant add undefined channel"
  else if (lookupK rt.channels name).isSome then .ok rt
  else .ok ⟨rt.channels ++ [(name, emptyReg)]⟩

/-- `removeChannel(name)`: throw on an empty name; if the channel exists,
clear its registry (its own full `off()`, whose cleared state is then
discarded) and delete the entry, returning the router (`some`); otherwise
return `false` (`none`) leaving the table unchanged. -/
def removeChannel (rt : RouterState) (name : String) :
    Except String (Option RouterState) :=
  if name = "" then .error "Cant remove undefined or main channel"
  else
    match lookupK rt.channels name with
    | some _ => .ok (some ⟨deleteK rt.channels name⟩)
    | none => .ok none

/-- Router `on(name, callback, context)`: default the context to the
router itself, resolve the channel, ensure it exists (this can throw for
a name starting with `:`), and delegate to the channel registry's
`on`. -/
def routerOn (p : PState) (rt : RouterState) (name : String)
    (cbA : Option Callback) (ctxA : Option CVal) :
    Except String (PState × RouterState × Option Handle) :=
  let ctx' : Option CVal := some (ctxA.getD .routerObj)
  let channel := (resolveName name).1
  let ev := (resolveName name).2
  match addChannel rt channel with
  | .error e => .error e
  | .ok rt' =>
    let reg := (lookupK rt'.channels channel).getD emptyReg
    let res := onFn p reg ev cbA ctx'
    .ok (res.1, ⟨updateK rt'.channels channel res.2.1⟩, res.2.2)

/-- Router `once(name, callback, context)`. -/
def routerOnce (p : PState) (rt : RouterState) (name : String)
    (cbA : Option Callback) (ctxA : Option CVal) :
    Except String (PState × RouterState × Option Handle) :=
  let ctx' : Option CVal := some (ctxA.getD .routerObj)
  let channel := (resolveName name).1
  let ev := (resolveName name).2
  match addChannel rt channel with
  | .error e => .error e
  | .ok rt' =>
    let reg := (lookupK rt'.channels channel).getD emptyReg
    let res := onceFn p reg ev cbA ctx'
    .ok (res.1, ⟨updateK rt'.channels channel res.2.1⟩, res.2.2)

/-- Router `off()` with no name: `_.each(this.channels, (c, id) =>
self.removeChannel(id))` over the captured key list. -/
def routerOffAll (rt : RouterState) : Except String RouterState :=
  (rt.channels.map Prod.fst).foldl
    (fun acc k =>
      match acc with
      | .error e => .error e
      | .ok rt' =>
        match removeChannel rt' k with
        | .error e => .error e
        | .ok (some rt2) => .ok rt2
        | .ok none => .ok rt') (.ok rt)

/-- Router `off(name, cb)`: no name removes every channel; a name starting
with `@` removes the channel `name.split('@')[1]` if present; otherwise
resolve `channel:event` and delegate `off(event, cb)` (or `off(event)`)
to the channel if it exists. -/
def routerOff (rt : RouterState) (nameA : Option String)
    (cbA : Option OffArg) : Except String RouterState :=
  match nameA with
  | none => routerOffAll rt
  | some name =>
    if name.toList.head? = some '@' then
      let channel :=
        ((splitChar '@' name.toList).map (fun l => String.mk l)).getD 1 ""
      if (lookupK rt.channels channel).isSome then
        match removeChannel rt channel with
        | .error e => .error e
        | .ok (some rt') => .ok rt'
        | .ok none => .ok rt
      else .ok rt
    else
      let channel := (resolveName name).1
      let ev := (resolveName name).2
      match lookupK rt.channels channel with
      | some reg =>
        .ok ⟨updateK rt.channels channel (offFn reg (some ev) cbA none)⟩
      | none => .ok rt

/-- Router `emit(name, ...args)`: resolve the channel; if it exists,
delegate `trigger(event, ...args)` to its registry, otherwise silently
drop the event. -/
def routerEmit (p : PState) (rt : RouterState) (name : String)
    (args : List Arg) : PState × RouterState × List Call :=
  let channel := (resolveName name).1
  let ev := (resolveName name).2
  match lookupK rt.channels channel with
  | some reg =>
    let res := triggerFn p reg ev args
    (res.1, ⟨updateK rt.channels channel res.2.1⟩, res.2.2)
  | none => (p, rt, [])

/-! ### Specification-side predicates -/

/-- A callback that is not a `_.once` wrapper (a function a user would
pass to `on`). -/
def Callback.isDirect : Callback → Bool
  | .wrapper _ _ _ => false
  | _ => true

/-- `mentions orig c`: `orig` is `c` itself or the original wrapped
(possibly repeatedly) inside the wrapper `c`.  Executing a callback that
does not mention `orig` can never run `orig`. -/
def mentions (orig : Callback) : Callback → Bool
  | .wrapper fid n inner =>
    (Callback.wrapper fid n inner == orig) || mentions orig inner
  | c => c == orig

/-- All listener records currently stored in a registry. -/
def recsOf (r : RegState) : List Rec :=
  (r.events.getD []).flatMap (fun pr => pr.2)

/-- Every record whose callback mentions `orig` is exactly the wrapper
`w`: the situation after `once(name, orig)` when `orig` is not otherwise
registered. -/
def onlyVia (w orig : Callback) (r : RegState) : Bool :=
  (r.events.getD []).all (fun pr =>
    pr.2.all (fun rec =>
      !(mentions orig rec.callback) || (rec.callback == w)))

/-- The number of times the callback `orig` itself is invoked in a
trace. -/
def origRuns (orig : Callback) (tr : List Call) : Nat :=
  (tr.filter (fun c => c.cb == orig)).length

/-- The bucket invariant: every bucket present in `_events` holds at
least one listener record. -/
def nonemptyBuckets (r : RegState) : Bool :=
  (r.events.getD []).all (fun pr => !pr.2.isEmpty)

/-- The spec's description of which records `off(name, callback[, context])`
removes for a function `callback`: the stored callback or the once-wrapped
original equals it, and, when a context is given, the record's context
additionally equals it. -/
def matchesOff (f : Callback) (ctxA : Option CVal) (rec : Rec) : Bool :=
  (f == rec.callback || some f == origOf rec.callback)
    && (match ctxA with
        | some c => some c == rec.context
        | none => true)

/-! ### Table lemmas -/

@[simp] theorem lookupK_nil {α : Type} (k : String) :
    lookupK ([] : List (String × α)) k = none := rfl

@[simp] theorem lookupK_cons {α : Type} (p : String × α)
    (tl : List (String × α)) (k : String) :
    lookupK (p :: tl) k = if p.1 = k then some p.2 else lookupK tl k := rfl

@[simp] theorem updateK_nil {α : Type} (k : String) (v : α) :
    updateK ([] : List (String × α)) k v = [] := rfl

@[simp] theorem updateK_cons {α : Type} (p : String × α)
    (tl : List (String × α)) (k : String) (v : α) :
    updateK (p :: tl) k v
      = (if p.1 = k then (k, v) else p) :: updateK tl k v := rfl

@[simp] theorem deleteK_nil {α : Type} (k : String) :
    deleteK ([] : List (String × α)) k = [] := rfl

@[simp] theorem deleteK_cons {α : Type} (p : String × α)
    (tl : List (String × α)) (k : String) :
    deleteK (p :: tl) k
      = if p.1 = k then deleteK tl k else p :: deleteK tl k := rfl

theorem lookupK_none_iff {α : Type} (tbl : List (String × α)) (k : String) :
    lookupK tbl k = none ↔ ∀ p ∈ tbl, p.1 ≠ k := by
  induction tbl with
  | nil => simp
  | cons hd tl ih =>
    by_cases h : hd.1 = k <;> simp [h, ih]

theorem lookupK_mem {α : Type} {tbl : List (String × α)} {k : String}
    {v : α} (h : lookupK tbl k = some v) : (k, v) ∈ tbl := by
  induction tbl with
  | nil => simp at h
  | cons hd tl ih =>
    obtain ⟨a, c⟩ := hd
    by_cases hk : a = k
    · subst hk
      simp at h
      subst h
      exact List.mem_cons_self _ _
    · simp [hk] at h
      exact List.mem_cons_of_mem _ (ih h)

theorem lookupK_updateK_self {α : Type} {tbl : List (String × α)}
    {k : String} {b : α} (v : α) (h : lookupK tbl k = some b) :
    lookupK (updateK tbl k v) k = some v := by
  induction tbl with
  | nil => simp at h
  | cons hd tl ih =>
    by_cases hk : hd.1 = k
    · simp [hk]
    · simp [hk] at h ⊢
      exact ih h

theorem lookupK_updateK_ne {α : Type} (tbl : List (String × α))
    (k k' : String) (v : α) (h : k' ≠ k) :
    lookupK (updateK tbl k v) k' = lookupK tbl k' := by
  induction tbl with
  | nil => rfl
  | cons hd tl ih =>
    by_cases hk : hd.1 = k
    · simp [hk, Ne.symm h, ih]
    · simp [hk, ih]

theorem lookupK_deleteK_ne {α : Type} (tbl : List (String × α))
    (k k' : String) (h : k' ≠ k) :
    lookupK (deleteK tbl k) k' = lookupK tbl k' := by
  induction tbl with
  | nil => rfl
  | cons hd tl ih =>
    by_cases hk : hd.1 = k
    · simp [hk, Ne.symm h, ih]
    · simp [hk, ih]

theorem mem_deleteK {α : Type} {tbl : List (String × α)} {k : String}
    {p : String × α} (h : p ∈ deleteK tbl k) : p ∈ tbl := by
  induction tbl with
  | nil => simp at h
  | cons hd tl ih =>
    by_cases hk : hd.1 = k
    · simp [hk] at h
      exact List.mem_cons_of_mem _ (ih h)
    · simp [hk] at h
      rcases h with h | h
      · exact h ▸ List.mem_cons_self _ _
      · exact List.mem_cons_of_mem _ (ih h)

theorem mem_updateK {α : Type} {tbl : List (String × α)} {k : String}
    {v : α} {p : String × α} (h : p ∈ updateK tbl k v) :
    p ∈ tbl ∨ p = (k, v) := by
  induction tbl with
  | nil => simp at h
  | cons hd tl ih =>
    by_cases hk : hd.1 = k
    · simp [hk] at h
      rcases h with h | h
      · exact .inr h
      · rcases ih h with h' | h'
        · exact .inl (List.mem_cons_of_mem _ h')
        · exact .inr h'
    · simp [hk] at h
      rcases h with h | h
      · exact .inl (h ▸ List.mem_cons_self _ _)
      · rcases ih h with h' | h'
        · exact .inl (List.mem_cons_of_mem _ h')
        · exact .inr h'

theorem updateK_updateK {α : Type} (tbl : List (String × α))
    (k : String) (v w : α) :
    updateK (updateK tbl k v) k w = updateK tbl k w := by
  induction tbl with
  | nil => rfl
  | cons hd tl ih =>
    by_cases hk : hd.1 = k <;> simp [hk, ih]

theorem updateK_of_absent {α : Type} {tbl : List (String × α)}
    {k : String} (v : α) (h : ∀ p ∈ tbl, p.1 ≠ k) :
    updateK tbl k v = tbl := by
  induction tbl with
  | nil => rfl
  | cons hd tl ih =>
    have h1 := h hd (List.mem_cons_self _ _)
    simp [h1, ih (fun p hp => h p (List.mem_cons_of_mem _ hp))]

theorem updateK_self {α : Type} {tbl : List (String × α)} {k : String}
    {b : α} (hnd : (tbl.map Prod.fst).Nodup) (h : lookupK tbl k = some b) :
    updateK tbl k b = tbl := by
  induction tbl with
  | nil => rfl
  | cons hd tl ih =>
    obtain ⟨a, c⟩ := hd
    simp only [List.map_cons, List.nodup_cons] at hnd
    by_cases hk : a = k
    · subst hk
      simp at h
      subst h
      have habs : ∀ p ∈ tl, p.1 ≠ a := by
        intro p hp hpk
        exact hnd.1 (hpk ▸ List.mem_map_of_mem Prod.fst hp)
      simp [updateK_of_absent _ habs]
    · simp [hk] at h ⊢
      exact ih hnd.2 h

theorem deleteK_of_none {α : Type} {tbl : List (String × α)} {k : String}
    (h : lookupK tbl k = none) : deleteK tbl k = tbl := by
  induction tbl with
  | nil => rfl
  | cons hd tl ih =>
    by_cases hk : hd.1 = k
    · simp [hk] at h
    · simp [hk] at h ⊢
      exact ih h

theorem deleteK_append {α : Type} (t1 t2 : List (String × α)) (k : String) :
    deleteK (t1 ++ t2) k = deleteK t1 k ++ deleteK t2 k := by
  induction t1 with
  | nil => rfl
  | cons hd tl ih =>
    by_cases hk : hd.1 = k <;> simp [hk, ih]

theorem deleteK_append_singleton {α : Type} {tbl : List (String × α)}
    {k : String} (v : α) (h : lookupK tbl k = none) :
    deleteK (tbl ++ [(k, v)]) k = tbl := by
  rw [deleteK_append, deleteK_of_none h]
  simp

theorem lookupK_append_singleton_self {α : Type}
    {tbl : List (String × α)} {k : String} (v : α)
    (h : lookupK tbl k = none) :
    lookupK (tbl ++ [(k, v)]) k = some v := by
  induction tbl with
  | nil => simp
  | cons hd tl ih =>
    by_cases hk : hd.1 = k
    · simp [hk] at h
    · simp [hk] at h ⊢
      exact ih h

theorem lookupK_append_singleton_ne {α : Type}
    (tbl : List (String × α)) (k k' : String) (v : α) (h : k' ≠ k) :
    lookupK (tbl ++ [(k, v)]) k' = lookupK tbl k' := by
  induction tbl with
  | nil => simp [Ne.symm h]
  | cons hd tl ih =>
    by_cases hk : hd.1 = k' <;> simp [hk, ih]

theorem upsertK_of_some {α : Type} {tbl : List (String × α)} {k : String}
    {b : α} (v : α) (h : lookupK tbl k = some b) :
    upsertK tbl k v = updateK tbl k v := by
  simp [upsertK, h]

theorem upsertK_of_none {α : Type} {tbl : List (String × α)} {k : String}
    (v : α) (h : lookupK tbl k = none) :
    upsertK tbl k v = tbl ++ [(k, v)] := by
  simp [upsertK, h]

theorem lookupK_upsertK_self {α : Type} (tbl : List (String × α))
    (k : String) (v : α) : lookupK (upsertK tbl k v) k = some v := by
  cases h : lookupK tbl k with
  | none => rw [upsertK_of_none v h, lookupK_append_singleton_self v h]
  | some b => rw [upsertK_of_some v h, lookupK_updateK_self v h]

/-! ### Membership and invariant characterizations -/

theorem mem_recsOf {rec : Rec} {tbl : Table} :
    rec ∈ recsOf ⟨some tbl⟩ ↔ ∃ pr ∈ tbl, rec ∈ pr.2 := by
  simp [recsOf, List.mem_flatMap]

theorem recsOf_none : recsOf ⟨none⟩ = [] := rfl

theorem mem_recsOf_of_lookupK {tbl : Table} {n : String} {b : List Rec}
    {rec : Rec} (h : lookupK tbl n = some b) (hrec : rec ∈ b) :
    rec ∈ recsOf ⟨some tbl⟩ :=
  mem_recsOf.mpr ⟨(n, b), lookupK_mem h, hrec⟩

theorem nonemptyBuckets_iff {r : RegState} :
    nonemptyBuckets r = true ↔ ∀ pr ∈ r.events.getD [], pr.2 ≠ [] := by
  simp [nonemptyBuckets, List.all_eq_true, List.isEmpty_iff]

theorem onlyVia_iff {w orig : Callback} {r : RegState} :
    onlyVia w orig r = true ↔
      ∀ rec ∈ recsOf r, mentions orig rec.callback = true →
        rec.callback = w := by
  simp only [onlyVia, List.all_eq_true, recsOf, List.mem_flatMap]
  constructor
  · intro h rec hrec hm
    obtain ⟨pr, hpr, hrecpr⟩ := hrec
    have := h pr hpr rec hrecpr
    simp only [Bool.or_eq_true, Bool.not_eq_true'] at this
    rcases this with h' | h'
    · rw [hm] at h'; cases h'
    · exact beq_iff_eq.mp h'
  · intro h pr hpr rec hrec
    simp only [Bool.or_eq_true, Bool.not_eq_true']
    by_cases hm : mentions orig rec.callback = true
    · exact .inr (beq_iff_eq.mpr (h rec ⟨pr, hpr, hrec⟩ hm))
    · exact .inl (Bool.not_eq_true _ ▸ hm)

/-! ### Generic preservation combinators -/

theorem foldl_pres {σ α : Type} {P : σ → Prop} {f : σ → α → σ}
    (hf : ∀ s a, P s → P (f s a)) :
    ∀ (l : List α) (s : σ), P s → P (l.foldl f s) := by
  intro l
  induction l with
  | nil => exact fun s hs => hs
  | cons x xs ih => exact fun s hs => ih _ (hf s x hs)

theorem foldTrace_pres {α : Type} (P : RegState → Prop)
    (step : PState → RegState → α → PState × RegState × List Call)
    (hstep : ∀ p r x, P r → P (step p r x).2.1) :
    ∀ (l : List α) (p : PState) (r : RegState),
      P r → P (foldTrace step l p r).2.1 := by
  intro l
  induction l with
  | nil => exact fun p r h => h
  | cons x xs ih =>
    intro p r h
    simp only [foldTrace]
    exact ih _ _ (hstep p r x h)

theorem execCb_pres (P : RegState → Prop)
    (hoff : ∀ r nameA cbA ctxA, P r → P (offFn r nameA cbA ctxA)) :
    ∀ (c : Callback) (p : PState) (r : RegState) (t : Tgt) (a : List Arg),
      P r → P (execCb p r c t a).2.1 := by
  intro c
  induction c with
  | fn tag => exact fun p r t a h => h
  | fnOffId tag n i =>
    intro p r t a h
    simp only [execCb]
    exact hoff r _ _ _ h
  | fnOffFn tag n tgtc ih =>
    intro p r t a h
    simp only [execCb]
    exact hoff r _ _ _ h
  | wrapper fid n inner ih =>
    intro p r t a h
    simp only [execCb]
    split
    · exact h
    · exact ih _ _ t a (hoff r _ _ _ h)

theorem triggerEvents_pres (P : RegState → Prop)
    (hoff : ∀ r nameA cbA ctxA, P r → P (offFn r nameA cbA ctxA))
    (evs : List Rec) (args : List Arg) :
    ∀ (p : PState) (r : RegState), P r → P (triggerEvents p r evs args).2.1 :=
  fun p r h =>
    foldTrace_pres P _ (fun p' r' ev h' => execCb_pres P hoff ev.callback p' r' ev.ctx args h')
      evs p r h

theorem triggerSingle_pres (P : RegState → Prop)
    (hoff : ∀ r nameA cbA ctxA, P r → P (offFn r nameA cbA ctxA))
    (p : PState) (r : RegState) (name : String) (args : List Arg)
    (h : P r) : P (triggerSingle p r name args).2.1 := by
  unfold triggerSingle
  split
  · exact h
  next tbl hre =>
    split <;> split
    · exact triggerEvents_pres P hoff _ _ _ _
        (triggerEvents_pres P hoff _ _ _ _ h)
    · exact triggerEvents_pres P hoff _ _ _ _ h
    · exact triggerEvents_pres P hoff _ _ _ _ h
    · exact h

theorem triggerFn_pres (P : RegState → Prop)
    (hoff : ∀ r nameA cbA ctxA, P r → P (offFn r nameA cbA ctxA))
    (p : PState) (r : RegState) (name : String) (args : List Arg)
    (h : P r) : P (triggerFn p r name args).2.1 := by
  unfold triggerFn
  split
  · exact h
  · split
    · exact foldTrace_pres P _
        (fun p' r' nn h' => triggerSingle_pres P hoff p' r' nn args h') _ p r h
    · exact triggerSingle_pres P hoff p r name args h

/-! ### `off` only removes records -/

/-- All records of an event table. -/
def recsOfT (tbl : Table) : List Rec :=
  tbl.flatMap (fun pr => pr.2)

theorem recsOf_some (tbl : Table) : recsOf ⟨some tbl⟩ = recsOfT tbl := rfl

theorem mem_recsOfT {rec : Rec} {tbl : Table} :
    rec ∈ recsOfT tbl ↔ ∃ pr ∈ tbl, rec ∈ pr.2 := by
  simp [recsOfT, List.mem_flatMap]

theorem recsT_offBucket_subset (tbl : Table) (n : String)
    (cbA : Option OffArg) (ctxA : Option CVal) :
    recsOfT (offBucket tbl n cbA ctxA) ⊆ recsOfT tbl := by
  intro rec hrec
  unfold offBucket at hrec
  split at hrec
  · exact hrec
  next evs hl =>
    split at hrec
    · obtain ⟨pr, hpr, hrpr⟩ := mem_recsOfT.mp hrec
      exact mem_recsOfT.mpr ⟨pr, mem_deleteK hpr, hrpr⟩
    · split at hrec
      · obtain ⟨pr, hpr, hrpr⟩ := mem_recsOfT.mp hrec
        exact mem_recsOfT.mpr ⟨pr, mem_deleteK hpr, hrpr⟩
      · obtain ⟨pr, hpr, hrpr⟩ := mem_recsOfT.mp hrec
        rcases mem_updateK hpr with h' | h'
        · exact mem_recsOfT.mpr ⟨pr, h', hrpr⟩
        · subst h'
          exact mem_recsOfT.mpr
            ⟨(n, evs), lookupK_mem hl, List.mem_of_mem_filter hrpr⟩

theorem recs_offCore_subset (r : RegState) (nameA : Option String)
    (cbA : Option OffArg) (ctxA : Option CVal) :
    recsOf (offCore r nameA cbA ctxA) ⊆ recsOf r := by
  obtain ⟨ev⟩ := r
  cases ev with
  | none => exact fun _ h => h
  | some tbl =>
    simp only [offCore]
    split
    · intro rec hrec
      simp [recsOf] at hrec
    · rw [recsOf_some, recsOf_some]
      exact foldl_pres (P := fun t => recsOfT t ⊆ recsOfT tbl)
        (fun t nn ht => (recsT_offBucket_subset t nn cbA ctxA).trans ht)
        _ tbl (fun _ h => h)

theorem recs_offFn_subset (r : RegState) (nameA : Option String)
    (cbA : Option OffArg) (ctxA : Option CVal) :
    recsOf (offFn r nameA cbA ctxA) ⊆ recsOf r := by
  unfold offFn
  split
  · exact fun _ h => h
  · split
    · split
      · exact foldl_pres (P := fun st => recsOf st ⊆ recsOf r)
          (fun st nn hst =>
            (recs_offCore_subset st (some nn) cbA ctxA).trans hst)
          _ r (fun _ h => h)
      · exact recs_offCore_subset r _ cbA ctxA
    · exact recs_offCore_subset r _ cbA ctxA

theorem recs_triggerFn_subset (p : PState) (r : RegState) (name : String)
    (args : List Arg) : recsOf (triggerFn p r name args).2.1 ⊆ recsOf r :=
  triggerFn_pres (fun st => recsOf st ⊆ recsOf r)
    (fun r' nameA cbA ctxA h => (recs_offFn_subset r' nameA cbA ctxA).trans h)
    p r name args (fun _ h => h)

/-! ### The nonempty-bucket invariant is preserved -/

/-- The bucket invariant at table level. -/
def nonemptyT (tbl : Table) : Prop :=
  ∀ pr ∈ tbl, pr.2 ≠ []

theorem nonemptyBuckets_some {tbl : Table} :
    nonemptyBuckets ⟨some tbl⟩ = true ↔ nonemptyT tbl := by
  rw [nonemptyBuckets_iff]
  rfl

theorem nonemptyT_offBucket {tbl : Table} (n : String)
    (cbA : Option OffArg) (ctxA : Option CVal) (h : nonemptyT tbl) :
    nonemptyT (offBucket tbl n cbA ctxA) := by
  unfold offBucket
  split
  · exact h
  next evs hl =>
    split
    · exact fun pr hpr => h pr (mem_deleteK hpr)
    · split
      · exact fun pr hpr => h pr (mem_deleteK hpr)
      next hne =>
        intro pr hpr
        rcases mem_updateK hpr with h' | h'
        · exact h pr h'
        · subst h'
          simp only [ne_eq]
          intro hcon
          rw [hcon] at hne
          simp at hne

theorem nonempty_offCore {r : RegState} (nameA : Option String)
    (cbA : Option OffArg) (ctxA : Option CVal)
    (h : nonemptyBuckets r = true) :
    nonemptyBuckets (offCore r nameA cbA ctxA) = true := by
  obtain ⟨ev⟩ := r
  cases ev with
  | none => exact h
  | some tbl =>
    simp only [offCore]
    split
    · rfl
    · rw [nonemptyBuckets_some] at h ⊢
      exact foldl_pres (P := nonemptyT)
        (fun t nn ht => nonemptyT_offBucket nn cbA ctxA ht) _ tbl h

theorem nonempty_offFn {r : RegState} (nameA : Option String)
    (cbA : Option OffArg) (ctxA : Option CVal)
    (h : nonemptyBuckets r = true) :
    nonemptyBuckets (offFn r nameA cbA ctxA) = true := by
  unfold offFn
  split
  · exact h
  · split
    · split
      · exact foldl_pres (P := fun st => nonemptyBuckets st = true)
          (fun st nn hst => nonempty_offCore (some nn) cbA ctxA hst) _ r h
      · exact nonempty_offCore _ cbA ctxA h
    · exact nonempty_offCore _ cbA ctxA h

theorem nonempty_onSingle {p : PState} {r : RegState} (name : String)
    (cbA : Option Callback) (ctxA : Option CVal)
    (h : nonemptyBuckets r = true) :
    nonemptyBuckets (onSingle p r name cbA ctxA).2.1 = true := by
  unfold onSingle
  split
  · exact h
  · rw [nonemptyBuckets_iff] at h ⊢
    intro pr hpr
    simp only [Option.getD_some] at hpr
    unfold upsertK at hpr
    split at hpr
    · rcases mem_updateK hpr with h' | h'
      · exact h pr h'
      · subst h'
        simp
    · rcases List.mem_append.mp hpr with h' | h'
      · exact h pr h'
      · simp at h'
        subst h'
        simp

theorem nonempty_onFn {p : PState} {r : RegState} (name : String)
    (cbA : Option Callback) (ctxA : Option CVal)
    (h : nonemptyBuckets r = true) :
    nonemptyBuckets (onFn p r name cbA ctxA).2.1 = true := by
  simp only [onFn]
  split
  · exact foldl_pres (P := fun st : PState × RegState =>
        nonemptyBuckets st.2 = true)
      (fun st nn hst => nonempty_onSingle nn cbA ctxA hst) _ (p, r) h
  · exact nonempty_onSingle name cbA ctxA h

theorem nonempty_onceSingle {p : PState} {r : RegState} (name : String)
    (cbA : Option Callback) (ctxA : Option CVal)
    (h : nonemptyBuckets r = true) :
    nonemptyBuckets (onceSingle p r name cbA ctxA).2.1 = true := by
  unfold onceSingle
  split
  · exact h
  · exact nonempty_onSingle name _ ctxA h

theorem nonempty_onceFn {p : PState} {r : RegState} (name : String)
    (cbA : Option Callback) (ctxA : Option CVal)
    (h : nonemptyBuckets r = true) :
    nonemptyBuckets (onceFn p r name cbA ctxA).2.1 = true := by
  simp only [onceFn]
  split
  · exact foldl_pres (P := fun st : PState × RegState =>
        nonemptyBuckets st.2 = true)
      (fun st nn hst => nonempty_onceSingle nn cbA ctxA hst) _ (p, r) h
  · exact nonempty_onceSingle name cbA ctxA h

theorem nonempty_triggerFn {p : PState} {r : RegState} (name : String)
    (args : List Arg) (h : nonemptyBuckets r = true) :
    nonemptyBuckets (triggerFn p r name args).2.1 = true :=
  triggerFn_pres (fun st => nonemptyBuckets st = true)
    (fun _ nameA cbA ctxA h' => nonempty_offFn nameA cbA ctxA h')
    p r name args h

/-- C9: after each public registry operation (`on`, `once`, `off`,
`trigger`, and the `off` call `stopListening` makes on each listened-to
source), every bucket present in the `_events` table still holds at least
one listener record: a bucket whose filtered remainder is empty is deleted
rather than stored empty. -/
theorem bucket_invariant_after_public_ops :
    (∀ (p : PState) (r : RegState) (n : String) (cbA : Option Callback)
        (ctxA : Option CVal), nonemptyBuckets r = true →
        nonemptyBuckets (onFn p r n cbA ctxA).2.1 = true)
    ∧ (∀ (p : PState) (r : RegState) (n : String) (cbA : Option Callback)
        (ctxA : Option CVal), nonemptyBuckets r = true →
        nonemptyBuckets (onceFn p r n cbA ctxA).2.1 = true)
    ∧ (∀ (r : RegState) (nameA : Option String) (cbA : Option OffArg)
        (ctxA : Option CVal), nonemptyBuckets r = true →
        nonemptyBuckets (offFn r nameA cbA ctxA) = true)
    ∧ (∀ (p : PState) (r : RegState) (n : String) (args : List Arg),
        nonemptyBuckets r = true →
        nonemptyBuckets (triggerFn p r n args).2.1 = true)
    ∧ (∀ (src : RegState) (nameA : Option String) (cbA : Option OffArg)
        (selfObj : CVal), nonemptyBuckets src = true →
        nonemptyBuckets (stopListeningSource src nameA cbA selfObj) = true) :=
  ⟨fun _ _ n cbA ctxA h => nonempty_onFn n cbA ctxA h,
   fun _ _ n cbA ctxA h => nonempty_onceFn n cbA ctxA h,
   fun _ nameA cbA ctxA h => nonempty_offFn nameA cbA ctxA h,
   fun _ _ n args h => nonempty_triggerFn n args h,
   fun _ nameA cbA selfObj h => nonempty_offFn nameA cbA (some selfObj) h⟩

/-- Witness for C9 at a concrete registry: removing the only listener of
bucket `"e"` by handle id leaves no empty bucket behind. -/
theorem bucket_invariant_after_public_ops_witness :
    nonemptyBuckets ⟨some [("e", [⟨.fn 0, none, .selfReg, 1000⟩])]⟩ = true
    ∧ nonemptyBuckets
        (offFn ⟨some [("e", [⟨.fn 0, none, .selfReg, 1000⟩])]⟩
          (some "e") (some (.byId 1000)) none) = true :=
  ⟨by decide,
   bucket_invariant_after_public_ops.2.2.1
     ⟨some [("e", [⟨.fn 0, none, .selfReg, 1000⟩])]⟩
     (some "e") (some (.byId 1000)) none (by decide)⟩

/-! ### Dispatch traces over non-wrapper callbacks -/

theorem execCb_direct_trace {c : Callback} (hd : c.isDirect = true)
    (p : PState) (r : RegState) (t : Tgt) (a : List Arg) :
    (execCb p r c t a).2.2 = [⟨c, t, a⟩] := by
  cases c with
  | fn tag => rfl
  | fnOffId tag n i => rfl
  | fnOffFn tag n tc => rfl
  | wrapper fid n inner => simp [Callback.isDirect] at hd

theorem execCb_direct_pstate {c : Callback} (hd : c.isDirect = true)
    (p : PState) (r : RegState) (t : Tgt) (a : List Arg) :
    (execCb p r c t a).1 = p := by
  cases c with
  | fn tag => rfl
  | fnOffId tag n i => rfl
  | fnOffFn tag n tc => rfl
  | wrapper fid n inner => simp [Callback.isDirect] at hd

theorem triggerEvents_direct_trace {evs : List Rec} (args : List Arg)
    (hd : ∀ rec ∈ evs, rec.callback.isDirect = true) :
    ∀ (p : PState) (r : RegState),
      (triggerEvents p r evs args).2.2
        = evs.map (fun rec => ⟨rec.callback, rec.ctx, args⟩) := by
  induction evs with
  | nil => intro p r; rfl
  | cons ev rest ih =>
    intro p r
    have hev : ev.callback.isDirect = true := hd ev (List.mem_cons_self _ _)
    simp only [triggerEvents, foldTrace] at *
    rw [execCb_direct_trace hev, List.map_cons]
    simp only [List.singleton_append, List.cons.injEq, true_and]
    exact ih (fun rec hrec => hd rec (List.mem_cons_of_mem _ hrec)) _ _

theorem triggerFn_eq_single {e : String} (h3 : hasWs e = false)
    (p : PState) (r : RegState) (args : List Arg) :
    triggerFn p r e args = triggerSingle p r e args := by
  cases hre : r.events with
  | none => simp [triggerFn, triggerSingle, hre]
  | some tbl => simp [triggerFn, hre, h3]

theorem triggerSingle_trace {p : PState} {r : RegState} {tbl : Table}
    {e : String} {l : List Rec} (args : List Arg)
    (hre : r.events = some tbl) (hl : lookupK tbl e = some l)
    (hd1 : ∀ rec ∈ l, rec.callback.isDirect = true)
    (hd2 : ∀ rec ∈ (lookupK tbl "all").getD [],
        rec.callback.isDirect = true) :
    (triggerSingle p r e args).2.2
      = l.map (fun rec => ⟨rec.callback, rec.ctx, args⟩)
        ++ ((lookupK tbl "all").getD []).map
            (fun rec => ⟨rec.callback, rec.ctx, .str e :: args⟩) := by
  simp only [triggerSingle, hre, hl]
  cases hall : lookupK tbl "all" with
  | none =>
    simp [hall, triggerEvents_direct_trace args hd1]
  | some la =>
    rw [hall] at hd2
    simp only [Option.getD_some] at hd2
    simp only [hall, Option.getD_some]
    rw [triggerEvents_direct_trace args hd1,
      triggerEvents_direct_trace (Arg.str e :: args) hd2]

/-- C1 (amended: `e ≠ "all"`, since a `trigger("all")` dispatches the
`"all"` bucket twice — see the counterexample): a single
`trigger(e, args...)` on a registry whose bucket for `e` holds the records
`l` invokes each of them exactly once, in registration order, bound to its
record's invocation target and passed exactly the trigger arguments; the
only further invocations are those of the `"all"` bucket, which receive
the event name prepended. -/
theorem trigger_invokes_in_order (p : PState) (r : RegState) (tbl : Table)
    (e : String) (args : List Arg) (l : List Rec)
    (h1 : r.events = some tbl) (h2 : lookupK tbl e = some l)
    (h3 : hasWs e = false) (_h4 : e ≠ "all")
    (h5 : ∀ rec ∈ l, rec.callback.isDirect = true)
    (h6 : ∀ rec ∈ (lookupK tbl "all").getD [],
        rec.callback.isDirect = true) :
    (triggerFn p r e args).2.2
      = l.map (fun rec => ⟨rec.callback, rec.ctx, args⟩)
        ++ ((lookupK tbl "all").getD []).map
            (fun rec => ⟨rec.callback, rec.ctx, .str e :: args⟩) := by
  rw [triggerFn_eq_single h3]
  exact triggerSingle_trace args h1 h2 h5 h6

/-- Witness for C1: two listeners on `"e"` (one with a user context) plus
an `"all"` listener, triggered once with one argument. -/
theorem trigger_invokes_in_order_witness :
    ("e" : String) ≠ "all"
    ∧ (triggerFn ⟨1003, 0, []⟩
        ⟨some [("e", [⟨.fn 1, none, .selfReg, 1000⟩,
                      ⟨.fn 2, some (.userObj 5), .ofVal (.userObj 5), 1001⟩]),
               ("all", [⟨.fn 3, none, .selfReg, 1002⟩])]⟩ "e"
        [.val 9]).2.2
      = [⟨.fn 1, .selfReg, [.val 9]⟩,
         ⟨.fn 2, .ofVal (.userObj 5), [.val 9]⟩,
         ⟨.fn 3, .selfReg, [.str "e", .val 9]⟩] := by
  refine ⟨by decide, ?_⟩
  have h := trigger_invokes_in_order ⟨1003, 0, []⟩
    ⟨some [("e", [⟨.fn 1, none, .selfReg, 1000⟩,
                  ⟨.fn 2, some (.userObj 5), .ofVal (.userObj 5), 1001⟩]),
           ("all", [⟨.fn 3, none, .selfReg, 1002⟩])]⟩
    [("e", [⟨.fn 1, none, .selfReg, 1000⟩,
            ⟨.fn 2, some (.userObj 5), .ofVal (.userObj 5), 1001⟩]),
     ("all", [⟨.fn 3, none, .selfReg, 1002⟩])]
    "e" [.val 9]
    [⟨.fn 1, none, .selfReg, 1000⟩,
     ⟨.fn 2, some (.userObj 5), .ofVal (.userObj 5), 1001⟩]
    rfl (by decide) (by decide) (by decide) (by decide) (by decide)
  exact h.trans rfl

/-- Counterexample to C1 as stated: with `e = "all"`, a bucket holding one
listener record, a single `trigger("all", 7)` runs that callback twice
(once with the arguments, once with the event name prepended), not exactly
once. -/
theorem trigger_invokes_in_order_cex :
    origRuns (.fn 0)
      (triggerFn ⟨1001, 0, []⟩
        ⟨some [("all", [⟨.fn 0, none, .selfReg, 1000⟩])]⟩ "all"
        [.val 7]).2.2 = 2 := by
  decide

/-- C10: when a bucket named `"all"` exists, `trigger("all", args...)`
dispatches that same bucket twice in the one call: each listener is
invoked first with `args` and then again with the event name `"all"`
prepended to `args`. -/
theorem trigger_all_double_dispatch (p : PState) (r : RegState)
    (tbl : Table) (args : List Arg) (l : List Rec)
    (h1 : r.events = some tbl) (h2 : lookupK tbl "all" = some l)
    (h3 : ∀ rec ∈ l, rec.callback.isDirect = true) :
    (triggerFn p r "all" args).2.2
      = l.map (fun rec => ⟨rec.callback, rec.ctx, args⟩)
        ++ l.map (fun rec => ⟨rec.callback, rec.ctx, .str "all" :: args⟩)
    := by
  rw [triggerFn_eq_single (by decide)]
  have h := @triggerSingle_trace p r tbl "all" l args h1 h2 h3
    (by rw [h2]; simpa using h3)
  rw [h, h2]
  rfl

/-- Witness for C10: one `"all"` listener, triggered once with one
argument, runs twice. -/
theorem trigger_all_double_dispatch_witness :
    lookupK [("all", [(⟨.fn 0, none, .selfReg, 1000⟩ : Rec)])] "all"
      = some [⟨.fn 0, none, .selfReg, 1000⟩]
    ∧ (triggerFn ⟨1001, 0, []⟩
        ⟨some [("all", [⟨.fn 0, none, .selfReg, 1000⟩])]⟩ "all"
        [.val 7]).2.2
      = [⟨.fn 0, .selfReg, [.val 7]⟩,
         ⟨.fn 0, .selfReg, [.str "all", .val 7]⟩] := by
  refine ⟨by decide, ?_⟩
  have h := trigger_all_double_dispatch ⟨1001, 0, []⟩
    ⟨some [("all", [⟨.fn 0, none, .selfReg, 1000⟩])]⟩
    [("all", [⟨.fn 0, none, .selfReg, 1000⟩])] [.val 7]
    [⟨.fn 0, none, .selfReg, 1000⟩] rfl (by decide) (by decide)
  exact h.trans rfl

/-- Computing `off(name, '#id')` on a two-record bucket: the record with
the matching id is removed, the other stays. -/
theorem offFn_byId_pair {tbl : Table} {e : String} {a b : Rec}
    (h2 : lookupK tbl e = some [a, b]) (h3 : hasWs e = false)
    (hne : e ≠ "") (hid : a.id ≠ b.id) :
    offFn ⟨some tbl⟩ (some e) (some (.byId b.id)) none
      = ⟨some (updateK tbl e [a])⟩ := by
  have hka : keepRec (some (.byId b.id)) none a = true := by
    simp [keepRec, bne_iff_ne]
    exact Ne.symm hid
  have hkb : keepRec (some (.byId b.id)) none b = false := by
    simp [keepRec]
  simp [offFn, h3, offCore, normName, hne, offNames, offBucket, h2,
    hka, hkb]

/-- C6 (amended: the removal does *not* skip the later listener): when an
earlier listener's body removes a later listener of the same bucket during
dispatch, the later listener is nevertheless still invoked in the in-flight
dispatch — `off` replaces `_events[name]` with a freshly built array, while
`triggerEvents` keeps iterating the array captured at dispatch start.  The
removal only takes effect in the registry afterwards. -/
theorem removal_during_dispatch_no_skip (p : PState) (tbl : Table)
    (e : String) (args : List Arg) (a b : Rec) (ta tb : Nat)
    (h2 : lookupK tbl e = some [a, b]) (h3 : hasWs e = false)
    (hne : e ≠ "") (hall : lookupK tbl "all" = none)
    (ha : a.callback = .fnOffId ta e b.id) (hb : b.callback = .fn tb)
    (hid : a.id ≠ b.id) :
    triggerFn p ⟨some tbl⟩ e args
      = (p, ⟨some (updateK tbl e [a])⟩,
         [⟨a.callback, a.ctx, args⟩, ⟨b.callback, b.ctx, args⟩]) := by
  rw [triggerFn_eq_single h3]
  simp only [triggerSingle, h2, hall]
  simp only [triggerEvents, foldTrace, ha, hb, execCb,
    offFn_byId_pair h2 h3 hne hid]
  simp

/-- Witness for C6 (amended) at a concrete registry: listener `#6` removes
listener `#7` mid-dispatch; `#7` is still invoked, and is gone from the
bucket afterwards. -/
theorem removal_during_dispatch_no_skip_witness :
    lookupK [("e", [(⟨.fnOffId 1 "e" 7, none, .selfReg, 6⟩ : Rec),
                    ⟨.fn 2, none, .selfReg, 7⟩])] "e"
      = some [⟨.fnOffId 1 "e" 7, none, .selfReg, 6⟩,
              ⟨.fn 2, none, .selfReg, 7⟩]
    ∧ triggerFn ⟨1002, 0, []⟩
        ⟨some [("e", [⟨.fnOffId 1 "e" 7, none, .selfReg, 6⟩,
                      ⟨.fn 2, none, .selfReg, 7⟩])]⟩ "e" []
      = (⟨1002, 0, []⟩,
         ⟨some [("e", [⟨.fnOffId 1 "e" 7, none, .selfReg, 6⟩])]⟩,
         [⟨.fnOffId 1 "e" 7, .selfReg, []⟩, ⟨.fn 2, .selfReg, []⟩]) := by
  refine ⟨by decide, ?_⟩
  have h := removal_during_dispatch_no_skip ⟨1002, 0, []⟩
    [("e", [⟨.fnOffId 1 "e" 7, none, .selfReg, 6⟩,
            ⟨.fn 2, none, .selfReg, 7⟩])] "e" []
    ⟨.fnOffId 1 "e" 7, none, .selfReg, 6⟩ ⟨.fn 2, none, .selfReg, 7⟩
    1 2 (by decide) (by decide) (by decide) (by decide) rfl rfl
    (by decide)
  exact h.trans rfl

/-- Counterexample to C6 as stated: in the same concrete scenario the
dispatch trace still contains the invocation of the removed-ahead listener
(`.fn 2`), so it was not skipped, even though the first listener's `off`
removed it from the registry before its turn. -/
theorem removal_during_dispatch_cex :
    origRuns (.fn 2)
      (triggerFn ⟨1002, 0, []⟩
        ⟨some [("e", [⟨.fnOffId 1 "e" 7, none, .selfReg, 6⟩,
                      ⟨.fn 2, none, .selfReg, 7⟩])]⟩ "e" []).2.2 = 1
    ∧ recsOf (triggerFn ⟨1002, 0, []⟩
        ⟨some [("e", [⟨.fnOffId 1 "e" 7, none, .selfReg, 6⟩,
                      ⟨.fn 2, none, .selfReg, 7⟩])]⟩ "e" []).2.1
      = [⟨.fnOffId 1 "e" 7, none, .selfReg, 6⟩] := by
  refine ⟨by decide, by decide⟩

/-! ### `off` with a function callback -/

theorem keepRec_byFn_eq (f : Callback) (ctxA : Option CVal) (ev : Rec) :
    keepRec (some (.byFn f)) ctxA ev = !matchesOff f ctxA ev := by
  rcases ctxA with _ | c <;>
    simp [keepRec, matchesOff, bne, Bool.not_and, Bool.not_or]

theorem offFn_some_single {tbl : Table} {n : String} (cbA : OffArg)
    (ctxA : Option CVal) (h3 : hasWs n = false) (h4 : n ≠ "") :
    offFn ⟨some tbl⟩ (some n) (some cbA) ctxA
      = ⟨some (offBucket tbl n (some cbA) ctxA)⟩ := by
  simp [offFn, h3, offCore, normName, h4, offNames]

/-- C3: on the bucket for `n`, `off(n, f[, context])` with a function `f`
removes exactly the records whose stored callback, or once-wrapped
original, equals `f` — and, when a context is supplied, whose context
additionally equals it; the remaining records stay in their original
order (the bucket is deleted when nothing remains), and every other
bucket is untouched. -/
theorem off_byFn_removes_matching (r : RegState) (tbl : Table)
    (n : String) (f : Callback) (ctxA : Option CVal) (b : List Rec)
    (h1 : r.events = some tbl) (h2 : lookupK tbl n = some b)
    (h3 : hasWs n = false) (h4 : n ≠ "") :
    (offFn r (some n) (some (.byFn f)) ctxA).events
      = some (if (b.filter (fun rec => !matchesOff f ctxA rec)).isEmpty
          then deleteK tbl n
          else updateK tbl n (b.filter (fun rec => !matchesOff f ctxA rec)))
    ∧ ∀ k, k ≠ n →
        lookupK ((offFn r (some n) (some (.byFn f)) ctxA).events.getD []) k
          = lookupK tbl k := by
  have hr : r = ⟨some tbl⟩ := by
    cases r
    simp_all
  subst hr
  have hfilter : b.filter (keepRec (some (.byFn f)) ctxA)
      = b.filter (fun rec => !matchesOff f ctxA rec) :=
    List.filter_congr (fun rec _ => keepRec_byFn_eq f ctxA rec)
  have hmain : (offFn ⟨some tbl⟩ (some n) (some (.byFn f)) ctxA).events
      = some (if (b.filter (fun rec => !matchesOff f ctxA rec)).isEmpty
          then deleteK tbl n
          else updateK tbl n
            (b.filter (fun rec => !matchesOff f ctxA rec))) := by
    rw [offFn_some_single _ _ h3 h4]
    simp [offBucket, h2, hfilter]
  refine ⟨hmain, fun k hk => ?_⟩
  rw [hmain]
  simp only [Option.getD_some]
  split
  · exact lookupK_deleteK_ne tbl n k hk
  · exact lookupK_updateK_ne tbl n k _ hk

/-- Witness for C3: `off("e", f)` removes the two records whose callback
or wrapped original is `f` and keeps the unrelated listener, in place. -/
theorem off_byFn_removes_matching_witness :
    lookupK [("e", [(⟨.fn 1, none, .selfReg, 1000⟩ : Rec),
                    ⟨.fn 2, none, .selfReg, 1001⟩,
                    ⟨.wrapper 0 "e" (.fn 1), none, .selfReg, 1002⟩])] "e"
      = some [⟨.fn 1, none, .selfReg, 1000⟩,
              ⟨.fn 2, none, .selfReg, 1001⟩,
              ⟨.wrapper 0 "e" (.fn 1), none, .selfReg, 1002⟩]
    ∧ (offFn ⟨some [("e", [⟨.fn 1, none, .selfReg, 1000⟩,
                           ⟨.fn 2, none, .selfReg, 1001⟩,
                           ⟨.wrapper 0 "e" (.fn 1), none, .selfReg,
                             1002⟩])]⟩
        (some "e") (some (.byFn (.fn 1))) none).events
      = some [("e", [⟨.fn 2, none, .selfReg, 1001⟩])] := by
  refine ⟨by decide, ?_⟩
  have h := (off_byFn_removes_matching
    ⟨some [("e", [⟨.fn 1, none, .selfReg, 1000⟩,
                  ⟨.fn 2, none, .selfReg, 1001⟩,
                  ⟨.wrapper 0 "e" (.fn 1), none, .selfReg, 1002⟩])]⟩
    [("e", [⟨.fn 1, none, .selfReg, 1000⟩,
            ⟨.fn 2, none, .selfReg, 1001⟩,
            ⟨.wrapper 0 "e" (.fn 1), none, .selfReg, 1002⟩])]
    "e" (.fn 1) none
    [⟨.fn 1, none, .selfReg, 1000⟩,
     ⟨.fn 2, none, .selfReg, 1001⟩,
     ⟨.wrapper 0 "e" (.fn 1), none, .selfReg, 1002⟩]
    rfl (by decide) (by decide) (by decide)).1
  exact h.trans (by decide)

/-! ### Handles -/

theorem onFn_single {p : PState} {r : RegState} {n : String}
    (cbA : Option Callback) (ctxA : Option CVal) (h3 : hasWs n = false) :
    onFn p r n cbA ctxA = onSingle p r n cbA ctxA := by
  simp [onFn, h3]

/-- C4: `on(n, c, ctx)` hands out the handle carrying the current value of
the process-wide `maxHashId` counter and increments the counter; the new
id differs from every id already stored (ids stay below the counter), the
bound is maintained afterwards, and calling the handle's own `off()`
removes exactly the one record that registration appended — the table
returns to its previous state, even if other records hold the same
callback and context. -/
theorem on_handle_roundtrip (p : PState) (r : RegState) (tbl : Table)
    (n : String) (c : Callback) (ctxA : Option CVal)
    (h1 : r.events = some tbl) (h2 : hasWs n = false) (h4 : n ≠ "")
    (hnd : (tbl.map Prod.fst).Nodup)
    (hwf : ∀ rec ∈ recsOf r, rec.id < p.nextId)
    (hne : nonemptyBuckets r = true) :
    (onFn p r n (some c) ctxA).2.2 = some ⟨p.nextId, n⟩
    ∧ (onFn p r n (some c) ctxA).1.nextId = p.nextId + 1
    ∧ (∀ rec ∈ recsOf r, rec.id ≠ p.nextId)
    ∧ (∀ rec ∈ recsOf (onFn p r n (some c) ctxA).2.1,
        rec.id < (onFn p r n (some c) ctxA).1.nextId)
    ∧ (handleOff (onFn p r n (some c) ctxA).2.1
        ⟨p.nextId, n⟩).events = some tbl := by
  have hr : r = ⟨some tbl⟩ := by
    cases r
    simp_all
  subst hr
  have honF : onFn p ⟨some tbl⟩ n (some c) ctxA
      = (⟨p.nextId + 1, p.nextFlag, p.fired⟩,
         ⟨some (upsertK tbl n (((lookupK tbl n).getD [])
           ++ [mkRec c ctxA p.nextId]))⟩,
         some ⟨p.nextId, n⟩) := by
    rw [onFn_single (some c) ctxA h2]
    rfl
  have hkeepNew : keepRec (some (.byId p.nextId)) none
      (mkRec c ctxA p.nextId) = false := by
    simp [keepRec, mkRec]
  refine ⟨?_, ?_, fun rec h => (hwf rec h).ne, ?_, ?_⟩
  · rw [honF]
  · rw [honF]
  · intro rec hrec
    simp only [honF] at hrec ⊢
    simp only [recsOf_some] at hrec
    obtain ⟨pr, hpr, hrpr⟩ := mem_recsOfT.mp hrec
    cases hb : lookupK tbl n with
    | some bucket =>
      rw [hb, upsertK_of_some _ hb] at hpr
      simp only [Option.getD_some] at hpr
      rcases mem_updateK hpr with h' | h'
      · exact Nat.lt_succ_of_lt (hwf rec (mem_recsOfT.mpr ⟨pr, h', hrpr⟩))
      · subst h'
        rcases List.mem_append.mp hrpr with h'' | h''
        · exact Nat.lt_succ_of_lt
            (hwf rec (mem_recsOf_of_lookupK hb h''))
        · simp only [List.mem_singleton] at h''
          subst h''
          exact Nat.lt_succ_self _
    | none =>
      rw [hb, upsertK_of_none _ hb] at hpr
      rcases List.mem_append.mp hpr with h' | h'
      · exact Nat.lt_succ_of_lt
          (hwf rec (mem_recsOfT.mpr ⟨pr, h', hrpr⟩))
      · simp only [List.mem_singleton] at h'
        subst h'
        simp only [Option.getD_none, List.nil_append,
          List.mem_singleton] at hrpr
        subst hrpr
        exact Nat.lt_succ_self _
  · simp only [honF, handleOff]
    cases hb : lookupK tbl n with
    | some bucket =>
      have hbne : bucket ≠ [] :=
        (nonemptyBuckets_some.mp hne) (n, bucket) (lookupK_mem hb)
      have hbe : bucket.isEmpty = false := by
        cases bucket
        · exact absurd rfl hbne
        · rfl
      have hkeep : bucket.filter (keepRec (some (.byId p.nextId)) none)
          = bucket := by
        apply List.filter_eq_self.mpr
        intro rec hrec
        simp only [keepRec, bne_iff_ne, ne_eq]
        exact fun hcon =>
          (hwf rec (mem_recsOf_of_lookupK hb hrec)).ne hcon.symm
      simp only [Option.getD_some]
      rw [upsertK_of_some _ hb]
      have hlk : lookupK (updateK tbl n
          (bucket ++ [mkRec c ctxA p.nextId])) n
          = some (bucket ++ [mkRec c ctxA p.nextId]) :=
        lookupK_updateK_self _ hb
      rw [offFn_some_single _ _ h2 h4]
      simp only [offBucket, hlk, List.filter_append, hkeep,
        List.filter_cons, hkeepNew, List.filter_nil, List.append_nil]
      simp only [Option.isNone_some, Option.isNone_none, Bool.false_and,
        Bool.false_eq_true, if_false]
      rw [if_neg (by simp [hbe])]
      rw [updateK_updateK, List.append_nil, updateK_self hnd hb]
    | none =>
      simp only [Option.getD_none, List.nil_append]
      rw [upsertK_of_none _ hb]
      have hlk : lookupK (tbl ++ [(n, [mkRec c ctxA p.nextId])]) n
          = some [mkRec c ctxA p.nextId] :=
        lookupK_append_singleton_self _ hb
      rw [offFn_some_single _ _ h2 h4]
      simp only [offBucket, hlk, List.filter_cons, hkeepNew,
        List.filter_nil]
      simp only [Option.isNone_some, Option.isNone_none, Bool.false_and,
        Bool.false_eq_true, if_false]
      simp only [List.isEmpty_nil, eq_self_iff_true, if_true]
      rw [deleteK_append_singleton _ hb]

/-- Witness for C4: the new registration shares callback and context with
an existing record, yet the handle's `off()` removes only the new one. -/
theorem on_handle_roundtrip_witness :
    (∀ rec ∈ recsOf ⟨some [("e",
        [⟨.fn 1, some (.userObj 3), .ofVal (.userObj 3), 900⟩])]⟩,
      rec.id < (1000 : Nat))
    ∧ (handleOff
        (onFn ⟨1000, 0, []⟩
          ⟨some [("e",
            [⟨.fn 1, some (.userObj 3), .ofVal (.userObj 3), 900⟩])]⟩
          "e" (some (.fn 1)) (some (.userObj 3))).2.1
        ⟨1000, "e"⟩).events
      = some [("e", [⟨.fn 1, some (.userObj 3), .ofVal (.userObj 3),
          900⟩])] :=
  ⟨by decide,
   (on_handle_roundtrip ⟨1000, 0, []⟩
     ⟨some [("e", [⟨.fn 1, some (.userObj 3), .ofVal (.userObj 3), 900⟩])]⟩
     [("e", [⟨.fn 1, some (.userObj 3), .ofVal (.userObj 3), 900⟩])]
     "e" (.fn 1) (some (.userObj 3)) rfl (by decide) (by decide)
     (by decide) (by decide) (by decide)).2.2.2.2⟩

/-! ### Counting runs of a `once`-wrapped original -/

/-- `flagAllow fid p`: how many more times a wrapper guarded by flag `fid`
can run its original from process state `p`. -/
def flagAllow (fid : Nat) (p : PState) : Nat :=
  if fid ∈ p.fired then 0 else 1

theorem origRuns_nil (orig : Callback) : origRuns orig [] = 0 := rfl

theorem origRuns_append (orig : Callback) (t1 t2 : List Call) :
    origRuns orig (t1 ++ t2) = origRuns orig t1 + origRuns orig t2 := by
  simp [origRuns, List.filter_append]

theorem origRuns_cons_of_ne {x : Call} (orig : Callback) (tr : List Call)
    (h : x.cb ≠ orig) : origRuns orig (x :: tr) = origRuns orig tr := by
  simp [origRuns, List.filter_cons, beq_iff_eq, h]

theorem origRuns_cons_self {x : Call} (orig : Callback) (tr : List Call)
    (h : x.cb = orig) :
    origRuns orig (x :: tr) = origRuns orig tr + 1 := by
  simp [origRuns, List.filter_cons, beq_iff_eq, h]

theorem flagAllow_fireFlag_le (fid f : Nat) (p : PState) :
    flagAllow fid (fireFlag p f) ≤ flagAllow fid p := by
  by_cases h : fid ∈ p.fired
  · simp [flagAllow, fireFlag, List.mem_cons, h]
  · simp only [flagAllow, fireFlag]
    rw [if_neg h]
    split <;> omega

theorem flagAllow_fireFlag_self (fid : Nat) (p : PState) :
    flagAllow fid (fireFlag p fid) = 0 := by
  simp [flagAllow, fireFlag]

/-- One callback execution runs the original at most as often as the
guard flag still allows, provided the original can only be reached
through the wrapper. -/
theorem execCb_origRuns_le (orig : Callback) (fid : Nat) (wname : String)
    (hd : orig.isDirect = true) :
    ∀ (c : Callback),
      (mentions orig c = true → c = .wrapper fid wname orig) →
      ∀ (p : PState) (r : RegState) (t : Tgt) (a : List Arg),
        origRuns orig (execCb p r c t a).2.2
            + flagAllow fid (execCb p r c t a).1
          ≤ flagAllow fid p := by
  intro c
  induction c with
  | fn tag =>
    intro hc p r t a
    have hne : (Callback.fn tag) ≠ orig := by
      intro he
      exact absurd (hc (by simp [mentions, he])) (by simp)
    simp only [execCb]
    rw [origRuns_cons_of_ne orig _ hne]
    simp [origRuns]
  | fnOffId tag n i =>
    intro hc p r t a
    have hne : (Callback.fnOffId tag n i) ≠ orig := by
      intro he
      exact absurd (hc (by simp [mentions, he])) (by simp)
    simp only [execCb]
    rw [origRuns_cons_of_ne orig _ hne]
    simp [origRuns]
  | fnOffFn tag n tc _ =>
    intro hc p r t a
    have hne : (Callback.fnOffFn tag n tc) ≠ orig := by
      intro he
      exact absurd (hc (by simp [mentions, he])) (by simp)
    simp only [execCb]
    rw [origRuns_cons_of_ne orig _ hne]
    simp [origRuns]
  | wrapper f n inner ih =>
    intro hc p r t a
    have hwne : (Callback.wrapper f n inner) ≠ orig := by
      intro he
      rw [← he] at hd
      simp [Callback.isDirect] at hd
    by_cases hcw : Callback.wrapper f n inner = .wrapper fid wname orig
    · rw [hcw]
      have hwne2 : (Callback.wrapper fid wname orig) ≠ orig := by
        intro he
        rw [← he] at hd
        simp [Callback.isDirect] at hd
      by_cases hfid : fid ∈ p.fired
      · simp only [execCb, if_pos hfid]
        rw [origRuns_cons_of_ne orig _ hwne2]
        simp [origRuns]
      · simp only [execCb, if_neg hfid]
        rw [execCb_direct_trace hd, execCb_direct_pstate hd]
        rw [origRuns_cons_of_ne orig _ hwne2]
        rw [origRuns_cons_self orig _ rfl]
        rw [flagAllow_fireFlag_self]
        simp [origRuns, flagAllow, hfid]
    · have hmf : mentions orig (.wrapper f n inner) = false := by
        by_cases hm : mentions orig (.wrapper f n inner) = true
        · exact absurd (hc hm) hcw
        · simpa using hm
      have hinner : mentions orig inner = false := by
        simp only [mentions, Bool.or_eq_false_iff] at hmf
        exact hmf.2
      by_cases hfid2 : f ∈ p.fired
      · simp only [execCb, if_pos hfid2]
        rw [origRuns_cons_of_ne orig _ hwne]
        simp [origRuns]
      · simp only [execCb, if_neg hfid2]
        have hih := ih (fun hm => absurd hm (by simp [hinner]))
          (fireFlag p f)
          (offFn r (some n) (some (.byFn (.wrapper f n inner))) none) t a
        have hmono := flagAllow_fireFlag_le fid f p
        rw [origRuns_cons_of_ne orig _ hwne]
        omega

theorem recs_triggerSingle_subset (p : PState) (r : RegState)
    (name : String) (args : List Arg) :
    recsOf (triggerSingle p r name args).2.1 ⊆ recsOf r :=
  triggerSingle_pres (fun st => recsOf st ⊆ recsOf r)
    (fun r' nameA cbA ctxA h => (recs_offFn_subset r' nameA cbA ctxA).trans h)
    p r name args (fun _ h => h)

theorem onlyVia_mono {w orig : Callback} {r r' : RegState}
    (hsub : recsOf r' ⊆ recsOf r) (h : onlyVia w orig r = true) :
    onlyVia w orig r' = true := by
  rw [onlyVia_iff] at h ⊢
  exact fun rec hrec hm => h rec (hsub hrec) hm

theorem triggerEvents_origRuns_le (orig : Callback) (fid : Nat)
    (wname : String) (hd : orig.isDirect = true) (args : List Arg) :
    ∀ (evs : List Rec),
      (∀ rec ∈ evs, mentions orig rec.callback = true →
        rec.callback = .wrapper fid wname orig) →
      ∀ (p : PState) (r : RegState),
        origRuns orig (triggerEvents p r evs args).2.2
            + flagAllow fid (triggerEvents p r evs args).1
          ≤ flagAllow fid p := by
  intro evs
  induction evs with
  | nil =>
    intro _ p r
    simp [triggerEvents, foldTrace, origRuns]
  | cons ev rest ih =>
    intro h p r
    simp only [triggerEvents, foldTrace] at ih ⊢
    rw [origRuns_append]
    have h1 := execCb_origRuns_le orig fid wname hd ev.callback
      (h ev (List.mem_cons_self _ _)) p r ev.ctx args
    have h2 := ih (fun rec hrec => h rec (List.mem_cons_of_mem _ hrec))
      (execCb p r ev.callback ev.ctx args).1
      (execCb p r ev.callback ev.ctx args).2.1
    omega

theorem triggerSingle_origRuns_le (orig : Callback) (fid : Nat)
    (wname : String) (hd : orig.isDirect = true)
    (p : PState) (r : RegState) (name : String) (args : List Arg)
    (hO : ∀ rec ∈ recsOf r, mentions orig rec.callback = true →
        rec.callback = .wrapper fid wname orig) :
    origRuns orig (triggerSingle p r name args).2.2
        + flagAllow fid (triggerSingle p r name args).1
      ≤ flagAllow fid p := by
  obtain ⟨ev⟩ := r
  cases ev with
  | none => simp [triggerSingle, origRuns]
  | some tbl =>
    simp only [triggerSingle]
    have hb1 : ∀ (l : List Rec), lookupK tbl name = some l →
        ∀ rec ∈ l, mentions orig rec.callback = true →
          rec.callback = .wrapper fid wname orig :=
      fun l hl rec hrec => hO rec (mem_recsOf_of_lookupK hl hrec)
    have hb2 : ∀ (l : List Rec), lookupK tbl "all" = some l →
        ∀ rec ∈ l, mentions orig rec.callback = true →
          rec.callback = .wrapper fid wname orig :=
      fun l hl rec hrec => hO rec (mem_recsOf_of_lookupK hl hrec)
    cases h1 : lookupK tbl name with
    | some l1 =>
      cases h2 : lookupK tbl "all" with
      | some l2 =>
        simp only [h1, h2]
        rw [origRuns_append]
        have e1 := triggerEvents_origRuns_le orig fid wname hd args l1
          (hb1 l1 h1) p ⟨some tbl⟩
        have e2 := triggerEvents_origRuns_le orig fid wname hd
          (Arg.str name :: args) l2 (hb2 l2 h2)
          (triggerEvents p ⟨some tbl⟩ l1 args).1
          (triggerEvents p ⟨some tbl⟩ l1 args).2.1
        omega
      | none =>
        simp only [h1, h2]
        rw [origRuns_append]
        have e1 := triggerEvents_origRuns_le orig fid wname hd args l1
          (hb1 l1 h1) p ⟨some tbl⟩
        rw [origRuns_nil]
        omega
    | none =>
      cases h2 : lookupK tbl "all" with
      | some l2 =>
        simp only [h1, h2]
        rw [origRuns_append]
        have e2 := triggerEvents_origRuns_le orig fid wname hd
          (Arg.str name :: args) l2 (hb2 l2 h2) p ⟨some tbl⟩
        rw [origRuns_nil]
        omega
      | none =>
        simp [h1, h2, origRuns]

theorem triggerFn_origRuns_le (orig : Callback) (fid : Nat)
    (wname : String) (hd : orig.isDirect = true)
    (p : PState) (r : RegState) (name : String) (args : List Arg)
    (hO : onlyVia (.wrapper fid wname orig) orig r = true) :
    origRuns orig (triggerFn p r name args).2.2
        + flagAllow fid (triggerFn p r name args).1
      ≤ flagAllow fid p := by
  unfold triggerFn
  split
  · simp [origRuns]
  · split
    · have main : ∀ (parts : List String) (p' : PState) (r' : RegState),
          onlyVia (.wrapper fid wname orig) orig r' = true →
          origRuns orig
              (foldTrace (fun pp rr nn => triggerSingle pp rr nn args)
                parts p' r').2.2
            + flagAllow fid
              (foldTrace (fun pp rr nn => triggerSingle pp rr nn args)
                parts p' r').1
          ≤ flagAllow fid p' := by
        intro parts
        induction parts with
        | nil => intro p' r' _; simp [foldTrace, origRuns]
        | cons x xs ih =>
          intro p' r' hO'
          simp only [foldTrace]
          rw [origRuns_append]
          have e1 := triggerSingle_origRuns_le orig fid wname hd p' r' x
            args (onlyVia_iff.mp hO')
          have hO2 : onlyVia (.wrapper fid wname orig) orig
              (triggerSingle p' r' x args).2.1 = true :=
            onlyVia_mono (recs_triggerSingle_subset p' r' x args) hO'
          have e2 := ih (triggerSingle p' r' x args).1
            (triggerSingle p' r' x args).2.1 hO2
          omega
      exact main (splitWsS name) p r hO
    · exact triggerSingle_origRuns_le orig fid wname hd p r name args
        (onlyVia_iff.mp hO)

theorem recs_runTriggers_subset (p : PState) (r : RegState)
    (ops : List (String × List Arg)) :
    recsOf (runTriggers p r ops).2.1 ⊆ recsOf r :=
  foldTrace_pres (fun st => recsOf st ⊆ recsOf r) _
    (fun p' r' op h =>
      (recs_triggerFn_subset p' r' op.1 op.2).trans h) ops p r
    (fun _ h => h)

theorem runTriggers_origRuns_le (orig : Callback) (fid : Nat)
    (wname : String) (hd : orig.isDirect = true) :
    ∀ (ops : List (String × List Arg)) (p : PState) (r : RegState),
      onlyVia (.wrapper fid wname orig) orig r = true →
      origRuns orig (runTriggers p r ops).2.2
          + flagAllow fid (runTriggers p r ops).1
        ≤ flagAllow fid p := by
  intro ops
  induction ops with
  | nil => intro p r _; simp [runTriggers, foldTrace, origRuns]
  | cons op rest ih =>
    intro p r hO
    simp only [runTriggers, foldTrace] at ih ⊢
    rw [origRuns_append]
    have e1 := triggerFn_origRuns_le orig fid wname hd p r op.1 op.2 hO
    have hO2 : onlyVia (.wrapper fid wname orig) orig
        (triggerFn p r op.1 op.2).2.1 = true :=
      onlyVia_mono (recs_triggerFn_subset p r op.1 op.2) hO
    have e2 := ih (triggerFn p r op.1 op.2).1
      (triggerFn p r op.1 op.2).2.1 hO2
    omega

theorem lookupK_deleteK_self {α : Type} (tbl : List (String × α))
    (k : String) : lookupK (deleteK tbl k) k = none := by
  induction tbl with
  | nil => rfl
  | cons hd tl ih =>
    by_cases hk : hd.1 = k <;> simp [hk, ih]

/-- C2: for a direct callback `orig` wrapped by `once` into
`wrapper fid wname orig`: (1) as long as every registered occurrence of
`orig` is that wrapper, any sequence of `trigger` calls runs `orig` at
most once in total — the `_.once` flag also guards the double dispatch a
`trigger("all")` performs on the captured bucket; (2) on its first
invocation the wrapper first marks its flag, then deregisters itself via
`off(name, once)`, and only then invokes `orig` with the same `this` and
the unchanged trigger arguments; (3) that `off` removes every record of
the bucket whose callback is the wrapper, so the wrapped registration is
gone from the registry before `orig` runs. -/
theorem once_original_at_most_once (orig : Callback) (fid : Nat)
    (wname : String) (hd : orig.isDirect = true) :
    (∀ (p : PState) (r : RegState) (ops : List (String × List Arg)),
        onlyVia (.wrapper fid wname orig) orig r = true →
        origRuns orig (runTriggers p r ops).2.2 ≤ 1)
    ∧ (∀ (p : PState) (r : RegState) (t : Tgt) (args : List Arg)
          (tg : Nat), fid ∉ p.fired → orig = .fn tg →
        execCb p r (.wrapper fid wname orig) t args
          = (fireFlag p fid,
             offFn r (some wname)
               (some (.byFn (.wrapper fid wname orig))) none,
             [⟨.wrapper fid wname orig, t, args⟩, ⟨orig, t, args⟩]))
    ∧ (∀ (tbl : Table) (b' : List Rec), hasWs wname = false →
        wname ≠ "" →
        lookupK ((offFn ⟨some tbl⟩ (some wname)
            (some (.byFn (.wrapper fid wname orig))) none).events.getD [])
          wname = some b' →
        ∀ rec ∈ b', rec.callback ≠ .wrapper fid wname orig) := by
  refine ⟨?_, ?_, ?_⟩
  · intro p r ops hO
    have h := runTriggers_origRuns_le orig fid wname hd ops p r hO
    have hle : flagAllow fid p ≤ 1 := by
      unfold flagAllow
      split <;> omega
    omega
  · intro p r t args tg hfid horig
    subst horig
    simp [execCb, hfid]
  · intro tbl b' h3 h4 hb rec hrec
    rw [offFn_some_single _ _ h3 h4] at hb
    simp only [Option.getD_some] at hb
    unfold offBucket at hb
    split at hb
    next hl => rw [hl] at hb; cases hb
    next evs hl =>
      split at hb
      · rw [lookupK_deleteK_self] at hb
        cases hb
      · split at hb
        · rw [lookupK_deleteK_self] at hb
          cases hb
        · rw [lookupK_updateK_self _ hl] at hb
          injection hb with hb
          subst hb
          have hk := List.of_mem_filter hrec
          simp only [keepRec, Option.isNone_none, Option.isSome_none,
            Bool.false_and, Bool.or_false, Bool.and_eq_true,
            bne_iff_ne, ne_eq] at hk
          exact fun hcon => hk.1 hcon.symm

/-- Witness for C2: one `once` wrapper on `"e"`, two triggers; the
original runs at most once. -/
theorem once_original_at_most_once_witness :
    onlyVia (.wrapper 0 "e" (.fn 5)) (.fn 5)
      ⟨some [("e", [⟨.wrapper 0 "e" (.fn 5), none, .selfReg, 1000⟩])]⟩
      = true
    ∧ origRuns (.fn 5)
        (runTriggers ⟨1001, 1, []⟩
          ⟨some [("e", [⟨.wrapper 0 "e" (.fn 5), none, .selfReg, 1000⟩])]⟩
          [("e", [.val 1]), ("e", [.val 2])]).2.2 ≤ 1 :=
  ⟨by decide,
   (once_original_at_most_once (.fn 5) 0 "e" (by decide)).1
     ⟨1001, 1, []⟩
     ⟨some [("e", [⟨.wrapper 0 "e" (.fn 5), none, .selfReg, 1000⟩])]⟩
     [("e", [.val 1]), ("e", [.val 2])] (by decide)⟩

/-! ### Colon splitting -/

theorem splitChar_ne_nil (c : Char) (l : List Char) :
    splitChar c l ≠ [] := by
  cases l with
  | nil => simp [splitChar]
  | cons x xs =>
    simp only [splitChar]
    split
    · simp
    · split <;> simp

theorem splitChar_no_sep {c : Char} {l : List Char} (h : c ∉ l) :
    splitChar c l = [l] := by
  induction l with
  | nil => rfl
  | cons x xs ih =>
    simp only [List.mem_cons, not_or] at h
    simp only [splitChar, ih h.2]
    simp [Ne.symm h.1]

theorem splitChar_sep {c : Char} {as : List Char} (bs : List Char)
    (h : c ∉ as) :
    splitChar c (as ++ c :: bs) = as :: splitChar c bs := by
  induction as with
  | nil =>
    simp only [List.nil_append, splitChar]
    cases hs : splitChar c bs with
    | nil => exact absurd hs (splitChar_ne_nil c bs)
    | cons hh tt => simp
  | cons x xs ih =>
    simp only [List.mem_cons, not_or] at h
    have ih2 := ih h.2
    simp only [List.cons_append, splitChar]
    cases hs : splitChar c (xs ++ c :: bs) with
    | nil => exact absurd hs (splitChar_ne_nil c _)
    | cons hh tt =>
      rw [hs] at ih2
      injection ih2 with e1 e2
      subst e1
      subst e2
      simp [Ne.symm h.1]

theorem hasColon_append_colon (as bs : List Char) :
    hasColon ⟨as ++ ':' :: bs⟩ = true := by
  simp [hasColon, List.contains_iff_exists_mem_beq]

theorem resolveName_sep {chL evL : List Char} (hch : ':' ∉ chL)
    (hev : ':' ∉ evL) :
    resolveName ⟨chL ++ ':' :: evL⟩ = (⟨chL⟩, ⟨evL⟩) := by
  have hs : splitColonS ⟨chL ++ ':' :: evL⟩ = [⟨chL⟩, ⟨evL⟩] := by
    unfold splitColonS
    rw [show (String.mk (chL ++ ':' :: evL)).toList
        = chL ++ ':' :: evL from rfl]
    rw [splitChar_sep evL hch, splitChar_no_sep hev]
    rfl
  simp [resolveName, hasColon_append_colon, hs]

theorem resolveName_sep2 {chL evL : List Char} (restL : List Char)
    (hch : ':' ∉ chL) (hev : ':' ∉ evL) :
    resolveName ⟨chL ++ ':' :: (evL ++ ':' :: restL)⟩
      = (⟨chL⟩, ⟨evL⟩) := by
  have hs : splitColonS ⟨chL ++ ':' :: (evL ++ ':' :: restL)⟩
      = ⟨chL⟩ :: ⟨evL⟩ :: (splitChar ':' restL).map (fun l => ⟨l⟩) := by
    unfold splitColonS
    rw [show (String.mk (chL ++ ':' :: (evL ++ ':' :: restL))).toList
        = chL ++ ':' :: (evL ++ ':' :: restL) from rfl]
    rw [splitChar_sep (evL ++ ':' :: restL) hch, splitChar_sep restL hev]
    rfl
  simp [resolveName, hasColon_append_colon, hs]

/-- C5 (amended: the name is split at *every* colon, and the resolved
event name is the piece between the first and the second colon — anything
after a second colon is dropped, so `"a:b:c"` resolves to channel `"a"`
and event `"b"`, not `"b:c"`): for a compound name the channel is the
text before the first colon; with a single colon the event is the entire
remainder, but with further colons only the segment up to the second
colon survives.  `emit` (and likewise `on`, `once` and non-`@` `off`,
which share `resolveName`) consequently ignores everything after the
second colon. -/
theorem router_name_resolution (chL evL : List Char)
    (hch : ':' ∉ chL) (hev : ':' ∉ evL) :
    resolveName ⟨chL ++ ':' :: evL⟩ = (⟨chL⟩, ⟨evL⟩)
    ∧ (∀ restL : List Char,
        resolveName ⟨chL ++ ':' :: (evL ++ ':' :: restL)⟩
          = (⟨chL⟩, ⟨evL⟩))
    ∧ (∀ (restL : List Char) (p : PState) (rt : RouterState)
          (args : List Arg),
        routerEmit p rt ⟨chL ++ ':' :: (evL ++ ':' :: restL)⟩ args
          = routerEmit p rt ⟨chL ++ ':' :: evL⟩ args) := by
  refine ⟨resolveName_sep hch hev,
    fun restL => resolveName_sep2 restL hch hev,
    fun restL p rt args => ?_⟩
  unfold routerEmit
  rw [resolveName_sep hch hev, resolveName_sep2 restL hch hev]

/-- Witness for C5 (amended) at `"a:b:c"`. -/
theorem router_name_resolution_witness :
    (':' ∉ ['a'])
    ∧ resolveName ⟨['a'] ++ ':' :: (['b'] ++ ':' :: ['c'])⟩
        = (⟨['a']⟩, ⟨['b']⟩) := by
  refine ⟨by decide, ?_⟩
  exact (router_name_resolution ['a'] ['b'] (by decide) (by decide)).2.1
    ['c']

/-- Counterexample to C5 as stated: `"a:b:c"` does not resolve to channel
`"a"` and event `"b:c"` (the entire remainder after the first colon); it
resolves to event `"b"`. -/
theorem router_name_resolution_cex :
    resolveName "a:b:c" = ("a", "b")
    ∧ resolveName "a:b:c" ≠ ("a", "b:c") :=
  ⟨by decide, by decide⟩

/-- C7: `emit("chanA:evt", args...)` resolves to channel `chanA` and
delegates `trigger("evt", args...)` to that channel's registry alone —
the dispatch trace is exactly that registry's trigger trace (which covers
its `"evt"` bucket and, when present, its `"all"` bucket), and every
other channel's registry, the default `"global"` channel included, is
left untouched, so listeners registered under `"evt"` elsewhere are never
invoked. -/
theorem emit_reaches_only_named_channel (p : PState) (rt : RouterState)
    (args : List Arg) (chL evL : List Char) (reg : RegState)
    (hch : ':' ∉ chL) (hev : ':' ∉ evL)
    (hreg : lookupK rt.channels ⟨chL⟩ = some reg) :
    routerEmit p rt ⟨chL ++ ':' :: evL⟩ args
      = ((triggerFn p reg ⟨evL⟩ args).1,
         ⟨updateK rt.channels ⟨chL⟩ (triggerFn p reg ⟨evL⟩ args).2.1⟩,
         (triggerFn p reg ⟨evL⟩ args).2.2)
    ∧ ∀ k, k ≠ ⟨chL⟩ →
        lookupK (updateK rt.channels ⟨chL⟩
            (triggerFn p reg ⟨evL⟩ args).2.1) k
          = lookupK rt.channels k := by
  constructor
  · unfold routerEmit
    rw [resolveName_sep hch hev]
    simp [hreg]
  · exact fun k hk => lookupK_updateK_ne _ _ _ _ hk

/-- Witness for C7: `"chanA"` and `"global"` both hold an `"evt"`
listener; `emit("chanA:evt", 4)` runs only `chanA`'s listener and leaves
`"global"` unchanged. -/
theorem emit_reaches_only_named_channel_witness :
    lookupK [("global",
        (⟨some [("evt", [⟨.fn 1, none, .selfReg, 1000⟩])]⟩ : RegState)),
      ("chanA", ⟨some [("evt", [⟨.fn 2, none, .selfReg, 1001⟩])]⟩)]
      "chanA"
      = some ⟨some [("evt", [⟨.fn 2, none, .selfReg, 1001⟩])]⟩
    ∧ routerEmit ⟨1002, 0, []⟩
        ⟨[("global", ⟨some [("evt", [⟨.fn 1, none, .selfReg, 1000⟩])]⟩),
          ("chanA", ⟨some [("evt", [⟨.fn 2, none, .selfReg, 1001⟩])]⟩)]⟩
        ⟨['c','h','a','n','A'] ++ ':' :: ['e','v','t']⟩ [.val 4]
      = ((triggerFn ⟨1002, 0, []⟩
            ⟨some [("evt", [⟨.fn 2, none, .selfReg, 1001⟩])]⟩
            ⟨['e','v','t']⟩ [.val 4]).1,
         ⟨updateK [("global",
              ⟨some [("evt", [⟨.fn 1, none, .selfReg, 1000⟩])]⟩),
            ("chanA", ⟨some [("evt", [⟨.fn 2, none, .selfReg, 1001⟩])]⟩)]
            ⟨['c','h','a','n','A']⟩
            (triggerFn ⟨1002, 0, []⟩
              ⟨some [("evt", [⟨.fn 2, none, .selfReg, 1001⟩])]⟩
              ⟨['e','v','t']⟩ [.val 4]).2.1⟩,
         (triggerFn ⟨1002, 0, []⟩
            ⟨some [("evt", [⟨.fn 2, none, .selfReg, 1001⟩])]⟩
            ⟨['e','v','t']⟩ [.val 4]).2.2) :=
  ⟨by decide,
   (emit_reaches_only_named_channel ⟨1002, 0, []⟩
     ⟨[("global", ⟨some [("evt", [⟨.fn 1, none, .selfReg, 1000⟩])]⟩),
       ("chanA", ⟨some [("evt", [⟨.fn 2, none, .selfReg, 1001⟩])]⟩)]⟩
     [.val 4] ['c','h','a','n','A'] ['e','v','t']
     ⟨some [("evt", [⟨.fn 2, none, .selfReg, 1001⟩])]⟩
     (by decide) (by decide) (by decide)).1⟩

/-- C8: `addChannel` and `removeChannel` throw on an empty channel name;
`removeChannel` on an existing channel clears that channel's registry and
deletes the table entry, returning the router, while on a nonexistent
channel it returns `false` and leaves the channel table unchanged. -/
theorem channel_lifecycle :
    (∀ rt : RouterState,
        addChannel rt "" = .error "Cant add undefined channel")
    ∧ (∀ rt : RouterState,
        removeChannel rt ""
          = .error "Cant remove undefined or main channel")
    ∧ (∀ (rt : RouterState) (name : String) (reg : RegState),
        name ≠ "" → lookupK rt.channels name = some reg →
        removeChannel rt name = .ok (some ⟨deleteK rt.channels name⟩))
    ∧ (∀ (rt : RouterState) (name : String), name ≠ "" →
        lookupK rt.channels name = none →
        removeChannel rt name = .ok none) := by
  refine ⟨fun rt => rfl, fun rt => rfl, ?_, ?_⟩
  · intro rt name reg hne hl
    simp [removeChannel, hne, hl]
  · intro rt name hne hl
    simp [removeChannel, hne, hl]

/-- Witness for C8: removing the existing channel `"c"` deletes exactly
its entry; removing the absent channel `"d"` reports `false`. -/
theorem channel_lifecycle_witness :
    ("c" : String) ≠ ""
    ∧ removeChannel ⟨[("c", ⟨none⟩)]⟩ "c" = .ok (some ⟨[]⟩)
    ∧ removeChannel ⟨[("c", ⟨none⟩)]⟩ "d" = .ok none :=
  ⟨by decide,
   by
    have h := channel_lifecycle.2.2.1 ⟨[("c", ⟨none⟩)]⟩ "c" ⟨none⟩
      (by decide) (by decide)
    exact h.trans rfl,
   channel_lifecycle.2.2.2 ⟨[("c", ⟨none⟩)]⟩ "d" (by decide) (by decide)⟩
